import Mathlib

/-!
# Verification of the computational_geometry polygon library

Shallow embedding, over exact rational coordinates, of the polygon /
convex-hull / triangulation core from the `computational_geometry`
repository (`point.rs`, `triangle.rs`, `polygon.rs`, `convex_hull.rs`).
`f64` coordinates are modelled by `ℚ`: every arithmetic operation the
code performs on the inputs considered here (addition, subtraction,
multiplication, halving, comparisons against zero) is exact, so signs
and equalities of areas agree with the Rust computation.

Methods whose defining file is absent from the snapshot
(`line_segment.rs`, `vertex.rs`, the newer `polygon.rs` accessors used
by `convex_hull.rs`) are modelled from the specification; each such
definition carries a doc comment beginning `Modelled from the spec:`.
-/

set_option allowUnsafeReducibility true
attribute [local semireducible] Rat.add Rat.mul Rat.sub Rat.neg Rat.div Rat.inv Rat.blt

/-! ## Geometric primitives (`point.rs`, `triangle.rs`) -/

/-- A planar point.  `f64` coordinates are embedded as exact rationals. -/
structure Point where
  x : ℚ
  y : ℚ
deriving DecidableEq, Repr

/-- A directed line segment between two points (`line_segment.rs`,
`LineSegment` over plain points). -/
structure LineSegment where
  p1 : Point
  p2 : Point
deriving DecidableEq, Repr

/-- A triangle on three points (`triangle.rs`).  The memoizing
`OnceCell` is dropped: memoization does not change the value. -/
structure Triangle where
  p1 : Point
  p2 : Point
  p3 : Point
deriving DecidableEq, Repr

/-- `Triangle::area`: `0.5 * ((p2.x-p1.x)*(p3.y-p1.y) - (p3.x-p1.x)*(p2.y-p1.y))`. -/
def Triangle.area (t : Triangle) : ℚ :=
  ((t.p2.x - t.p1.x) * (t.p3.y - t.p1.y) - (t.p3.x - t.p1.x) * (t.p2.y - t.p1.y)) / 2

/-- `Triangle::double_area` (the integer-coordinate variant summed by
`Polygon::double_area`): the unhalved signed area
`(p2.x-p1.x)*(p3.y-p1.y) - (p3.x-p1.x)*(p2.y-p1.y)`. -/
def Triangle.double_area (t : Triangle) : ℚ :=
  (t.p2.x - t.p1.x) * (t.p3.y - t.p1.y) - (t.p3.x - t.p1.x) * (t.p2.y - t.p1.y)

/-- `Triangle::has_collinear_points`: zero area. -/
def Triangle.has_collinear_points (t : Triangle) : Bool :=
  decide (t.area = 0)

/-- `LineSegment::reverse` (used by `Polygon::in_cone` / `diagonal`). -/
def LineSegment.reverse (s : LineSegment) : LineSegment :=
  ⟨s.p2, s.p1⟩

/-- Modelled from the spec: `LineSegment::is_vertical` (file
`line_segment.rs` is missing).  The betweenness axis is "chosen by
checking if the segment is vertical" (§4.1); vertical means both
endpoints share the x coordinate. -/
def LineSegment.is_vertical (s : LineSegment) : Bool :=
  decide (s.p1.x = s.p2.x)

/-- `Point::left`: strictly left of the directed segment. -/
def Point.left (p : Point) (ab : LineSegment) : Bool :=
  decide ((Triangle.mk ab.p1 ab.p2 p).area > 0)

/-- `Point::left_on`: left of or on the directed segment. -/
def Point.left_on (p : Point) (ab : LineSegment) : Bool :=
  decide ((Triangle.mk ab.p1 ab.p2 p).area ≥ 0)

/-- Modelled from the spec: `Vertex::right` used by QuickHull's
partition (strictly right of the directed segment, the complement of
`left_on`). -/
def Point.right (p : Point) (ab : LineSegment) : Bool :=
  decide ((Triangle.mk ab.p1 ab.p2 p).area < 0)

/-- `Point::between`.  The Rust body tests membership in
`(e1..e2)` or `(e2..e1)`, which are HALF-OPEN ranges: `e1 <= c < e2`
respectively `e2 <= c < e1`. -/
def Point.between (p a b : Point) : Bool :=
  if !(Triangle.mk a b p).has_collinear_points then false
  else if LineSegment.is_vertical ⟨a, b⟩ then
    decide ((a.y ≤ p.y ∧ p.y < b.y) ∨ (b.y ≤ p.y ∧ p.y < a.y))
  else
    decide ((a.x ≤ p.x ∧ p.x < b.x) ∨ (b.x ≤ p.x ∧ p.x < a.x))

/-- `Triangle::contains`: false on degenerate triangles, otherwise the
query point must be `left_on` every directed edge. -/
def Triangle.contains (t : Triangle) (p : Point) : Bool :=
  if t.has_collinear_points then false
  else
    p.left_on ⟨t.p1, t.p2⟩ && p.left_on ⟨t.p2, t.p3⟩ && p.left_on ⟨t.p3, t.p1⟩

/-- Claim side for C3: the predicate the claim asserts `Point::between`
computes — collinear with `a`,`b` and within the CLOSED interval spanned
by `a` and `b` on the axis chosen by the verticality check. -/
def betweenClosedClaim (p a b : Point) : Prop :=
  (Triangle.mk a b p).area = 0 ∧
  (if a.x = b.x then min a.y b.y ≤ p.y ∧ p.y ≤ max a.y b.y
   else min a.x b.x ≤ p.x ∧ p.x ≤ max a.x b.x)

/-- Claim side for C9/C10: `p` strictly inside the triangle `(a,b,c)`
(same strict side of all three edges). -/
def strictlyInsideTriangle (p a b c : Point) : Prop :=
  ((Triangle.mk a b p).area > 0 ∧ (Triangle.mk b c p).area > 0 ∧ (Triangle.mk c a p).area > 0) ∨
  ((Triangle.mk a b p).area < 0 ∧ (Triangle.mk b c p).area < 0 ∧ (Triangle.mk c a p).area < 0)

instance (p a b c : Point) : Decidable (strictlyInsideTriangle p a b c) := by
  unfold strictlyInsideTriangle
  infer_instance

/-! ## Vertices and the polygon adjacency model (`vertex.rs`, `polygon.rs`) -/

/-- A polygon vertex: a stable identifier plus coordinates.
(`vertex.rs` is absent from the snapshot; per the spec a `Vertex` is a
`VertexId` plus its `Point`, with the prev/next links kept in the
polygon's neighbor map, and equality is componentwise.) -/
structure Vertex where
  id : ℕ
  x : ℚ
  y : ℚ
deriving DecidableEq, Repr

/-- `Vertex::coords`. -/
def Vertex.coords (v : Vertex) : Point :=
  ⟨v.x, v.y⟩

/-- `LineSegment` between two vertices (the form `polygon.rs` and
`convex_hull.rs` use, with fields `v1`, `v2`). -/
structure VSeg where
  v1 : Vertex
  v2 : Vertex
deriving DecidableEq, Repr

/-- `LineSegment::reverse`. -/
def VSeg.reverse (s : VSeg) : VSeg :=
  ⟨s.v2, s.v1⟩

/-- `Vertex::left` — delegates to the point predicate. -/
def Vertex.left (v : Vertex) (s : VSeg) : Bool :=
  v.coords.left ⟨s.v1.coords, s.v2.coords⟩

/-- `Vertex::left_on`. -/
def Vertex.left_on (v : Vertex) (s : VSeg) : Bool :=
  v.coords.left_on ⟨s.v1.coords, s.v2.coords⟩

/-- `Vertex::right` (used by QuickHull's partition). -/
def Vertex.right (v : Vertex) (s : VSeg) : Bool :=
  v.coords.right ⟨s.v1.coords, s.v2.coords⟩

/-- Modelled from the spec: `LineSegment::connected_to` — true iff the
segments share an endpoint (§4.1; `line_segment.rs` is missing). -/
def VSeg.connected_to (e ab : VSeg) : Bool :=
  e.v1 == ab.v1 || e.v1 == ab.v2 || e.v2 == ab.v1 || e.v2 == ab.v2

/-- Modelled from the spec: the proper-crossing half of
`LineSegment::intersects` — the segments strictly cross, decided by
paired orientation tests of each segment's endpoints against the other
segment; configurations with any collinear endpoint are left to the
improper (betweenness) case (§4.1). -/
def properIntersect (a b c d : Point) : Bool :=
  if (Triangle.mk a b c).has_collinear_points || (Triangle.mk a b d).has_collinear_points
      || (Triangle.mk c d a).has_collinear_points || (Triangle.mk c d b).has_collinear_points then
    false
  else
    (c.left ⟨a, b⟩ != d.left ⟨a, b⟩) && (a.left ⟨c, d⟩ != b.left ⟨c, d⟩)

/-- Modelled from the spec: `LineSegment::intersects` — a proper
crossing, or an endpoint of one segment lying on the other (the latter
via the source `Point::between`) (§4.1). -/
def VSeg.intersects (e ab : VSeg) : Bool :=
  properIntersect e.v1.coords e.v2.coords ab.v1.coords ab.v2.coords
    || (ab.v1.coords.between e.v1.coords e.v2.coords)
    || (ab.v2.coords.between e.v1.coords e.v2.coords)
    || (e.v1.coords.between ab.v1.coords ab.v2.coords)
    || (e.v2.coords.between ab.v1.coords ab.v2.coords)

/-- The polygon's neighbor map `HashMap<&Vertex, (&Vertex, &Vertex)>`
as an association list with unique keys.  The code only ever calls
`get` / `insert` / `remove` / `len` on it, so any finite-map
representation is observationally faithful. -/
abbrev NbrMap := List (Vertex × Vertex × Vertex)

/-- `HashMap::get`. -/
def nbrFind (m : NbrMap) (k : Vertex) : Option (Vertex × Vertex) :=
  (m.find? fun e => e.1 == k).map fun e => e.2

/-- `HashMap::insert` (replaces any existing binding of the key). -/
def nbrInsert (m : NbrMap) (k : Vertex) (pn : Vertex × Vertex) : NbrMap :=
  (k, pn) :: m.eraseP fun e => e.1 == k

/-- `HashMap::remove`, dropping the returned value (`Polygon::triangulation`
looks the value up with `nbrFind` first). -/
def nbrRemove (m : NbrMap) (k : Vertex) : NbrMap :=
  m.eraseP fun e => e.1 == k

/-- `Polygon` (`polygon.rs`): the anchor vertex plus the cyclic
neighbor map. -/
structure Polygon where
  anchor : Vertex
  neighbors : NbrMap
deriving DecidableEq, Repr

/-- itertools `tuple_windows::<(_,_,_)>` over the vertex list. -/
def windows3 : List Vertex → List (Vertex × Vertex × Vertex)
  | v0 :: v1 :: v2 :: rest => (v0, v1, v2) :: windows3 (v1 :: v2 :: rest)
  | _ => []

/-- The body of `Polygon::new`'s construction loop for one window
triple: insert the middle vertex's neighbors, closing the cycle at the
first and last vertices. -/
def newStep (first lastv : Vertex) (m : NbrMap) (w : Vertex × Vertex × Vertex) : NbrMap :=
  let m1 := nbrInsert m w.2.1 (w.1, w.2.2)
  let m2 := if w.1 == first then nbrInsert m1 w.1 (lastv, w.2.1) else m1
  if w.2.2 == lastv then nbrInsert m2 w.2.2 (w.2.1, first) else m2

/-- `Polygon::new`.  Indexing `vertices[0]` panics on an empty vector
(modelled by `none`); `vertices.last().expect("Polygon should have at
least 3 vertices")` can then no longer fail.  The neighbor map is built
from the window triples, closing the cycle at the first and last
vertices.  NOTE (claim C6): for one or two vertices there are no window
triples, so a `Polygon` with an EMPTY neighbor map is happily built —
construction does not fail. -/
def Polygon.new (vertices : List Vertex) : Option Polygon :=
  match vertices with
  | [] => none
  | first :: rest =>
    some ⟨first, (windows3 (first :: rest)).foldl
      (newStep first (vertices.getLastD first)) []⟩

/-- Total wrapper used to name concrete constructed polygons (the
default is never reached for a nonempty vertex list). -/
def polygonOf (l : List Vertex) : Polygon :=
  (Polygon.new l).getD ⟨⟨0, 0, 0⟩, []⟩

/-- The `Polygon::edges` walk, fueled: the Rust loop follows successor
links until it returns to the anchor, which takes at most
`neighbors.len()` steps on a well-formed cycle (on a malformed map the
Rust loop would panic or spin; the fuel then truncates). -/
def Polygon.edgesAux (p : Polygon) : ℕ → Vertex → List VSeg
  | 0, _ => []
  | fuel + 1, current =>
    match nbrFind p.neighbors current with
    | none => []
    | some pn =>
      ⟨current, pn.2⟩ :: (if pn.2 == p.anchor then [] else p.edgesAux fuel pn.2)

/-- `Polygon::edges`. -/
def Polygon.edges (p : Polygon) : List VSeg :=
  p.edgesAux p.neighbors.length p.anchor

/-- Interior-neighbor lookup along an open chain: the middle element of
each consecutive triple, mapped to its two chain neighbors (proof-side
helper for characterizing the `Polygon::new` neighbor map). -/
def chainLookup : List Vertex → Vertex → Option (Vertex × Vertex)
  | a :: b :: c :: t, k => if k = b then some (a, c) else chainLookup (b :: c :: t) k
  | _, _ => none

/-- `Polygon::neighbors` lookup made total in `Option`; `none` models
the `expect("Every vertex should have neighbors stored")` panic. -/
def Polygon.neighborsOf (p : Polygon) (v : Vertex) : Option (Vertex × Vertex) :=
  nbrFind p.neighbors v

/-- `Polygon::in_cone`. -/
def Polygon.in_cone (p : Polygon) (ab : VSeg) : Option Bool :=
  let a := ab.v1
  let ba := ab.reverse
  (p.neighborsOf a).map fun pn =>
    if pn.1.left_on ⟨a, pn.2⟩ then pn.1.left ab && pn.2.left ba
    else !(pn.2.left_on ab && pn.1.left_on ba)

/-- `Polygon::diagonal_internal_external`: no boundary edge that does
not share an endpoint with `ab` may intersect it. -/
def Polygon.diagonal_internal_external (p : Polygon) (ab : VSeg) : Bool :=
  p.edges.all fun e => !(!(e.connected_to ab) && e.intersects ab)

/-- `Polygon::diagonal`, with the `&&` short-circuit explicit: the
second `in_cone` (which may panic) is only evaluated when the first one
returned `true`. -/
def Polygon.diagonal (p : Polygon) (ab : VSeg) : Option Bool :=
  match p.in_cone ab with
  | none => none
  | some false => some false
  | some true =>
    match p.in_cone ab.reverse with
    | none => none
    | some false => some false
    | some true => some (p.diagonal_internal_external ab)

/-! ## Ear-clipping triangulation (`Polygon::triangulation`) -/

/-- The inner pass of `Polygon::triangulation` starting at `v2`:
advance along the working cycle until an ear is found or the walk
returns to `anchor`.  `Sum.inl (m, a, c)` = an ear was clipped (new
working map `m`, new anchor `a = v3`, chord `c` pushed; the Rust loop
then immediately breaks since `v2 = v3 = anchor`).  `Sum.inr m` = a
full pass found no ear (`m` is the working map after all its
remove/re-insert pairs).  `none` = a lookup panicked, or the walk
exceeded `fuel` (on a malformed cycle the Rust loop would spin). -/
def findEar (p : Polygon) : ℕ → NbrMap → Vertex → Vertex →
    Option (NbrMap × Vertex × VSeg ⊕ NbrMap)
  | 0, _, _, _ => none
  | fuel + 1, nbrs, anchor, v2 =>
    match nbrFind nbrs v2 with
    | none => none
    | some pn =>
      let nbrs1 := nbrRemove nbrs v2
      match p.diagonal ⟨pn.1, pn.2⟩ with
      | none => none
      | some true =>
        match nbrFind nbrs1 pn.2, nbrFind nbrs1 pn.1 with
        | some q3, some q1 =>
          some (Sum.inl
            (nbrInsert (nbrInsert nbrs1 pn.1 (q1.1, pn.2)) pn.2 (pn.1, q3.2),
             pn.2, ⟨pn.1, pn.2⟩))
        | _, _ => none
      | some false =>
        let nbrs2 := nbrInsert nbrs1 v2 (pn.1, pn.2)
        if pn.2 == anchor then some (Sum.inr nbrs2)
        else findEar p fuel nbrs2 anchor pn.2

/-- The outer `while neighbors.len() > 3` loop of
`Polygon::triangulation`, fueled.  When a full pass finds no ear the
Rust code re-enters the loop with an unchanged working map, so the
recursion repeats the identical pass until the fuel runs out
(`none` = the Rust loop never returns). -/
def triangulationAux (p : Polygon) : ℕ → NbrMap → Vertex → List VSeg → Option (List VSeg)
  | 0, _, _, _ => none
  | fuel + 1, nbrs, anchor, acc =>
    if 3 < nbrs.length then
      match findEar p nbrs.length nbrs anchor anchor with
      | none => none
      | some (Sum.inl r) => triangulationAux p fuel r.1 r.2.1 (acc ++ [r.2.2])
      | some (Sum.inr m) => triangulationAux p fuel m anchor acc
    else some acc

/-- `Polygon::triangulation`, fueled (a return of `none` for every fuel
means the Rust method never returns). -/
def Polygon.triangulation (p : Polygon) (fuel : ℕ) : Option (List VSeg) :=
  triangulationAux p fuel p.neighbors p.anchor []

/-- The self-intersecting "bowtie" quadrilateral
`(0,0), (1,1), (1,0), (0,1)`: a polygon on which no vertex is an ear. -/
def bowtieVertices : List Vertex :=
  [⟨0, 0, 0⟩, ⟨1, 1, 1⟩, ⟨2, 1, 0⟩, ⟨3, 0, 1⟩]

/-- The bowtie polygon. -/
def bowtiePoly : Polygon :=
  polygonOf bowtieVertices

/-- The bowtie's working neighbor map after one full (earless) pass of
the inner triangulation loop: the same finite map as
`bowtiePoly.neighbors` (each visited key was removed and re-inserted),
and a fixpoint of the pass. -/
def bowtiePassMap : NbrMap :=
  [(⟨3, 0, 1⟩, ⟨2, 1, 0⟩, ⟨0, 0, 0⟩),
   (⟨2, 1, 0⟩, ⟨1, 1, 1⟩, ⟨3, 0, 1⟩),
   (⟨1, 1, 1⟩, ⟨0, 0, 0⟩, ⟨2, 1, 0⟩),
   (⟨0, 0, 0⟩, ⟨3, 0, 1⟩, ⟨1, 1, 1⟩)]

/-- A 4x4 axis-aligned square, counter-clockwise. -/
def squareVertices : List Vertex :=
  [⟨0, 0, 0⟩, ⟨1, 4, 0⟩, ⟨2, 4, 4⟩, ⟨3, 0, 4⟩]

/-- The square polygon. -/
def squarePoly : Polygon :=
  polygonOf squareVertices

/-! ## Signed area (`Polygon::double_area`) -/

/-- `Polygon::double_area`: the sum, over the boundary edges, of the
signed double areas of the triangles `(anchor, e.v1, e.v2)`. -/
def Polygon.double_area (p : Polygon) : ℚ :=
  (p.edges.map fun e =>
    (Triangle.mk p.anchor.coords e.v1.coords e.v2.coords).double_area).sum

/-- The boundary cycle a polygon built by `Polygon::new` from the
vertex list `l` traverses: each vertex paired with its cyclic
successor. -/
def cyclicSegs (l : List Vertex) : List VSeg :=
  (l.zip (l.rotate 1)).map fun q => ⟨q.1, q.2⟩

/-- Claim side for C7: the cross term `x_a y_b - x_b y_a` of the
shoelace formula. -/
def crossD (a b : Point) : ℚ :=
  a.x * b.y - b.x * a.y

/-- Claim side for C7: the signed double area swept by an open
polyline. -/
def pathSum : List Point → ℚ
  | [] => 0
  | [_] => 0
  | a :: b :: rest => crossD a b + pathSum (b :: rest)

/-- Claim side for C7: twice the signed area of the polygon whose
boundary cycle is `l` — the shoelace formula, written as the path sum
of the closed walk. -/
def shoelace (l : List Point) : ℚ :=
  pathSum (l ++ l.take 1)

/-- Last element with a default, through `getLast?` (proof-side
helper). -/
def lastP (l : List Point) (d : Point) : Point :=
  l.getLast?.getD d

/-- Head element with a default (proof-side helper). -/
def headP (l : List Point) (d : Point) : Point :=
  l.head?.getD d

/-- The right triangle `(0,0), (3,0), (0,4)` of the spec's concrete
scenario. -/
def rtVertices : List Vertex :=
  [⟨0, 0, 0⟩, ⟨1, 3, 0⟩, ⟨2, 0, 4⟩]

/-! ## Convex hull algorithms (`convex_hull.rs`)

The hull algorithms consume the newer `Polygon` type whose accessors
live in a `polygon.rs` revision absent from the snapshot.  That polygon
is modelled from the spec as its boundary cycle (anchor first):
`vertices()` / `vertex_ids()` return the cycle in traversal order, the
`get_*` accessors look vertices up by id, and
`get_polygon(ids, preserve_orientation = true)` restricts the cycle to
an id set keeping the original relative order (§4.2). -/

/-- Modelled from the spec: `Polygon::vertex_ids`. -/
def vertex_ids (l : List Vertex) : List ℕ :=
  l.map Vertex.id

/-- Modelled from the spec: `Polygon::get_vertex`. -/
def get_vertex (l : List Vertex) (i : ℕ) : Option Vertex :=
  l.find? fun v => v.id == i

/-- Modelled from the spec: `Polygon::get_triangle` on three ids. -/
def get_triangle (l : List Vertex) (i1 i2 i3 : ℕ) : Option Triangle :=
  match get_vertex l i1, get_vertex l i2, get_vertex l i3 with
  | some v1, some v2, some v3 => some (Triangle.mk v1.coords v2.coords v3.coords)
  | _, _, _ => none

/-- Modelled from the spec: `Polygon::get_line_segment` on two ids. -/
def get_line_segment (l : List Vertex) (i1 i2 : ℕ) : Option VSeg :=
  match get_vertex l i1, get_vertex l i2 with
  | some v1, some v2 => some ⟨v1, v2⟩
  | _, _ => none

/-- Modelled from the spec: `Polygon::get_polygon(ids, true)` — the
sub-polygon on the id set `ids`, in the original cyclic order. -/
def get_polygon_preserving (l : List Vertex) (ids : Finset ℕ) : List Vertex :=
  l.filter fun v => decide (v.id ∈ ids)

/-- Modelled from the spec: `Polygon::get_polygon(ids, false)` — the
boundary cycle is exactly the caller-fixed id order (§4.2). -/
def get_polygon_ordered (l : List Vertex) (ids : List ℕ) : List Vertex :=
  ids.filterMap (get_vertex l)

/-- The id set of a hull polygon. -/
def hullIds (h : List Vertex) : Finset ℕ :=
  (h.map Vertex.id).toFinset

/-- Modelled from the spec: squared Euclidean distance.  The code
compares `OrderedFloat` distances; comparing squares gives the same
order, exactly. -/
def distSq (p q : Point) : ℚ :=
  (p.x - q.x) ^ 2 + (p.y - q.y) ^ 2

/-- Generic extreme-vertex scan (the spec's extreme accessors are
folds over the vertex collection; `better w best` decides whether `w`
replaces the current best). -/
def pickBy (better : Vertex → Vertex → Bool) : List Vertex → Option Vertex
  | [] => none
  | v :: t => some (t.foldl (fun best w => if better w best then w else best) v)

/-- Modelled from the spec: `rightmost_lowest_vertex` — the
lowest-then-rightmost vertex (gift wrapping / Graham scan start,
§4.5). -/
def rightmost_lowest_vertex (l : List Vertex) : Option Vertex :=
  pickBy (fun w best => decide (w.y < best.y) || (decide (w.y = best.y) && decide (w.x > best.x))) l

/-- Modelled from the spec: `lowest_rightmost_vertex` — the extreme
max-x vertex (ties by lower y); QuickHull's right anchor (§4.5). -/
def lowest_rightmost_vertex (l : List Vertex) : Option Vertex :=
  pickBy (fun w best => decide (w.x > best.x) || (decide (w.x = best.x) && decide (w.y < best.y))) l

/-- Modelled from the spec: `highest_leftmost_vertex` — the extreme
min-x vertex (ties by higher y); QuickHull's left anchor (§4.5). -/
def highest_leftmost_vertex (l : List Vertex) : Option Vertex :=
  pickBy (fun w best => decide (w.x < best.x) || (decide (w.x = best.x) && decide (w.y > best.y))) l

/-- Modelled from the spec: `lowest_leftmost_vertex` (divide-and-conquer
lower-tangent start on the right piece). -/
def lowest_leftmost_vertex (l : List Vertex) : Option Vertex :=
  pickBy (fun w best => decide (w.x < best.x) || (decide (w.x = best.x) && decide (w.y < best.y))) l

/-- Modelled from the spec: `highest_rightmost_vertex` (divide-and-conquer
upper-tangent start on the left piece). -/
def highest_rightmost_vertex (l : List Vertex) : Option Vertex :=
  pickBy (fun w best => decide (w.x > best.x) || (decide (w.x = best.x) && decide (w.y > best.y))) l

/-- Stable insertion of `x` into a sorted list: `x` goes before the
first element it compares `leB` to (so equal keys keep their original
relative order, as Rust's stable `sorted_by_key`). -/
def insSorted {α : Type} (leB : α → α → Bool) (x : α) : List α → List α
  | [] => [x]
  | y :: ys => if leB x y then x :: y :: ys else y :: insSorted leB x ys

/-- Stable sort by the goes-before-or-equal comparison `leB`
(itertools' `sorted_by_key`). -/
def sortByB {α : Type} (leB : α → α → Bool) : List α → List α
  | [] => []
  | x :: xs => insSorted leB x (sortByB leB xs)

/-- Helper for `dedupByB`: `kept` is the most recently retained
element; each later element matching it is dropped. -/
def dedupAux {α : Type} (sameB : α → α → Bool) (kept : α) : List α → List α
  | [] => []
  | y :: rest =>
    if sameB y kept then dedupAux sameB kept rest else y :: dedupAux sameB y rest

/-- Rust `Vec::dedup_by` / itertools `dedup_by`: drop each element that
`sameB`-matches the most recently kept one, keeping the first of every
run. -/
def dedupByB {α : Type} (sameB : α → α → Bool) : List α → List α
  | [] => []
  | x :: rest => x :: dedupAux sameB x rest

/-! ### InteriorPoints -/

/-- `InteriorPoints::interior_points` membership test for one id: some
ordered triple of three other pairwise-distinct ids spans a triangle
containing the vertex.  (Ids are distinct in constructed polygons, so
value-distinct triples coincide with itertools' positional
4-permutations.) -/
def isFoundInterior (l : List Vertex) (i : ℕ) : Bool :=
  (vertex_ids l).any fun a =>
    (vertex_ids l).any fun b =>
      (vertex_ids l).any fun c =>
        a != i && b != i && c != i && a != b && a != c && b != c &&
          (match get_vertex l i, get_triangle l a b c with
           | some v, some t => t.contains v.coords
           | _, _ => false)

/-- `InteriorPoints::interior_points`. -/
def interior_points (l : List Vertex) : Finset ℕ :=
  ((vertex_ids l).filter fun i => isFoundInterior l i).toFinset

/-- `InteriorPoints::convex_hull`: all ids minus the interior ones,
restricted back to the original cycle. -/
def interiorPointsHull (l : List Vertex) : List Vertex :=
  get_polygon_preserving l ((vertex_ids l).toFinset \ interior_points l)

/-- Claim side for C9: some triple of three other distinct vertices has
the queried vertex STRICTLY inside its triangle. -/
def strictlyFoundInterior (l : List Vertex) (i : ℕ) : Bool :=
  (vertex_ids l).any fun a =>
    (vertex_ids l).any fun b =>
      (vertex_ids l).any fun c =>
        a != i && b != i && c != i && a != b && a != c && b != c &&
          (match get_vertex l i, get_vertex l a, get_vertex l b, get_vertex l c with
           | some v, some va, some vb, some vc =>
             decide (strictlyInsideTriangle v.coords va.coords vb.coords vc.coords)
           | _, _, _, _ => false)

/-! ### ExtremeEdges -/

/-- `ExtremeEdges::extreme_edges` candidate pass: every ordered pair of
distinct ids such that all other vertices are `left_on` the segment. -/
def extremeEdgeCandidates (l : List Vertex) : List (ℕ × ℕ) :=
  (vertex_ids l).flatMap fun i1 =>
    ((vertex_ids l).filter fun i2 => !(i2 == i1)).filterMap fun i2 =>
      match get_line_segment l i1 i2 with
      | none => none
      | some ls =>
        if (l.filter fun v => !(v.id == i1 || v.id == i2)).all fun v => v.left_on ls then
          some (i1, i2)
        else none

/-- `Polygon::distance_between` surrogate on an id pair (squared; order
preserving). -/
def edgeDistSq (l : List Vertex) (e : ℕ × ℕ) : ℚ :=
  match get_vertex l e.1, get_vertex l e.2 with
  | some v1, some v2 => distSq v1.coords v2.coords
  | _, _ => 0

/-- `ExtremeEdges::remove_collinear`: sort by `(id1, Reverse dist)` and
keep only the farthest edge per first endpoint, then the same per
second endpoint. -/
def remove_collinear (l : List Vertex) (edges : List (ℕ × ℕ)) : List (ℕ × ℕ) :=
  let s1 := sortByB (fun e f => decide (e.1 < f.1)
      || (e.1 == f.1 && decide (edgeDistSq l e ≥ edgeDistSq l f))) edges
  let d1 := dedupByB (fun a b => a.1 == b.1) s1
  let s2 := sortByB (fun e f => decide (e.2 < f.2)
      || (e.2 == f.2 && decide (edgeDistSq l e ≥ edgeDistSq l f))) d1
  dedupByB (fun a b => a.2 == b.2) s2

/-- `ExtremeEdges::extreme_edges`. -/
def extreme_edges (l : List Vertex) : List (ℕ × ℕ) :=
  remove_collinear l (extremeEdgeCandidates l)

/-- `ExtremeEdges::convex_hull`. -/
def extremeEdgesHull (l : List Vertex) : List Vertex :=
  get_polygon_preserving l
    ((extreme_edges l).foldl (fun acc e => insert e.2 (insert e.1 acc)) ∅)

/-! ### GiftWrapping -/

/-- Modelled from the spec: the half-plane region of the CCW angle from
direction `u` to direction `w`, ordered `0` (angle 0), `1` (in
`(0, pi)`), `2` (angle pi), `3` (in `(pi, 2 pi)`).  Exact surrogate for
comparing `LineSegment::angle_to_vertex` values. -/
def angleRegion (u w : Point) : ℕ :=
  if u.x * w.y - u.y * w.x = 0 then (if u.x * w.x + u.y * w.y ≥ 0 then 0 else 2)
  else if u.x * w.y - u.y * w.x > 0 then 1
  else 3

/-- Modelled from the spec: strict comparison of CCW angles from `u`. -/
def angleLtB (u w1 w2 : Point) : Bool :=
  if angleRegion u w1 ≠ angleRegion u w2 then decide (angleRegion u w1 < angleRegion u w2)
  else if angleRegion u w1 == 1 || angleRegion u w1 == 3 then
    decide (w1.x * w2.y - w1.y * w2.x > 0)
  else false

/-- Modelled from the spec: equality of CCW angles from `u`. -/
def angleEqB (u w1 w2 : Point) : Bool :=
  angleRegion u w1 == angleRegion u w2 &&
    (angleRegion u w1 == 0 || angleRegion u w1 == 2
      || decide (w1.x * w2.y - w1.y * w2.x = 0))

/-- The direction vector of a segment. -/
def segDir (e : VSeg) : Point :=
  ⟨e.v2.x - e.v1.x, e.v2.y - e.v1.y⟩

/-- The direction from vertex `vi` towards `v`. -/
def dirTo (vi v : Vertex) : Point :=
  ⟨v.x - vi.x, v.y - vi.y⟩

/-- GiftWrapping's sort comparison: by CCW angle from the previous hull
edge, ties by decreasing distance from the current vertex
(`sorted_by_key((OF(angle), Reverse(OF(dist))))`). -/
def gwSortLeB (vi : Vertex) (e : VSeg) (v w : Vertex) : Bool :=
  angleLtB (segDir e) (dirTo vi v) (dirTo vi w) ||
    (angleEqB (segDir e) (dirTo vi v) (dirTo vi w) &&
      decide (distSq vi.coords v.coords ≥ distSq vi.coords w.coords))

/-- The gift-wrapping loop: pick the candidate with the least CCW angle
(farthest on ties, equal angles deduplicated keeping the first), wrap,
stop when back at the start vertex.  Fueled; `none` also models the
`[0]` index panic on an empty candidate list. -/
def giftWrapAux (l : List Vertex) (v0 : Vertex) :
    ℕ → VSeg → Vertex → Finset ℕ → Option (Finset ℕ)
  | 0, _, _, _ => none
  | fuel + 1, e, vi, hull =>
    let cands := l.filter fun v => !(v.id == vi.id)
    let deduped := dedupByB (fun a b => angleEqB (segDir e) (dirTo vi a) (dirTo vi b))
      (sortByB (gwSortLeB vi e) cands)
    match deduped with
    | [] => none
    | vmin :: _ =>
      match get_line_segment l vi.id vmin.id with
      | none => none
      | some e2 =>
        if vmin.id == v0.id then some hull
        else giftWrapAux l v0 fuel e2 vmin (insert vmin.id hull)

/-- `GiftWrapping::convex_hull`: start at the rightmost-lowest vertex
with a synthetic horizontal edge entering it from the left. -/
def giftWrappingHull (l : List Vertex) : Option (List Vertex) :=
  match rightmost_lowest_vertex l with
  | none => none
  | some v0 =>
    let vSynth : Vertex := ⟨v0.id, v0.x - 1, v0.y⟩
    (giftWrapAux l v0 (l.length + 1) ⟨vSynth, v0⟩ v0 (insert v0.id ∅)).map
      (get_polygon_preserving l)

/-! ### QuickHull -/

/-- `max_by_key(OF(ab.distance_to_vertex(v)))`: the distance to the
supporting line compares like the absolute doubled triangle area (the
segment length is a shared factor).  Rust's `max_by_key` returns the
LAST maximal element, hence the replace-on-ties fold. -/
def maxByDistLast (ab : VSeg) : List Vertex → Option Vertex
  | [] => none
  | v :: t => some (t.foldl (fun best w =>
      if decide (abs ((Triangle.mk ab.v1.coords ab.v2.coords w.coords).double_area)
          ≥ abs ((Triangle.mk ab.v1.coords ab.v2.coords best.coords).double_area))
      then w else best) v)

/-- The QuickHull work-stack loop (`while !stack.is_empty()`), fueled. -/
def quickHullAux (l : List Vertex) :
    ℕ → List (ℕ × ℕ × List Vertex) → Finset ℕ → Option (Finset ℕ)
  | 0, stack, acc => if stack.isEmpty then some acc else none
  | fuel + 1, stack, acc =>
    match stack with
    | [] => some acc
    | (a, b, s) :: rest =>
      match get_line_segment l a b with
      | none => none
      | some ab =>
        match maxByDistLast ab s with
        | none => none
        | some cv =>
          let c := cv.id
          match get_line_segment l a c, get_line_segment l c b with
          | some ac, some cb =>
            let s1 := s.filter fun v => v.right ac
            let s2 := s.filter fun v => v.right cb
            let st1 := if s1.isEmpty then rest else (a, c, s1) :: rest
            let st2 := if s2.isEmpty then st1 else (c, b, s2) :: st1
            quickHullAux l fuel st2 (insert c acc)
          | _, _ => none

/-- `QuickHull::convex_hull`: split by the segment through the extreme
max-x / min-x vertices, then recursively take farthest points, with an
explicit stack. -/
def quickHull (l : List Vertex) : Option (Finset ℕ) :=
  match lowest_rightmost_vertex l, highest_leftmost_vertex l with
  | some vx, some vy =>
    match get_line_segment l vx.id vy.id with
    | none => none
    | some xy =>
      let s := l.filter fun v => !(v.id == vx.id || v.id == vy.id)
      let s1 := s.filter fun v => v.right xy
      let s2 := s.filter fun v => !(v.right xy)
      let st0 : List (ℕ × ℕ × List Vertex) := if s1.isEmpty then [] else [(vx.id, vy.id, s1)]
      let st := if s2.isEmpty then st0 else (vy.id, vx.id, s2) :: st0
      quickHullAux l (2 * l.length + 2) st (insert vy.id (insert vx.id ∅))
  | _, _ => none

/-- The hull polygon QuickHull returns (`get_polygon(hull_ids, true)`). -/
def quickHullHull (l : List Vertex) : Option (List Vertex) :=
  (quickHull l).map (get_polygon_preserving l)

/-! ### GrahamScan -/

/-- Modelled from the spec: `Polygon::min_angle_sorted_vertices` — all
vertices but the rightmost-lowest anchor, sorted by polar angle around
it (measured from the positive x direction, ties by decreasing
distance), with equal-angle collinear points cleaned to keep only the
farthest. -/
def min_angle_sorted_vertices (l : List Vertex) (anchor : Vertex) : List Vertex :=
  dedupByB (fun a b => angleEqB ⟨1, 0⟩ (dirTo anchor a) (dirTo anchor b))
    (sortByB (fun v w => angleLtB ⟨1, 0⟩ (dirTo anchor v) (dirTo anchor w) ||
        (angleEqB ⟨1, 0⟩ (dirTo anchor v) (dirTo anchor w) &&
          decide (distSq anchor.coords v.coords ≥ distSq anchor.coords w.coords)))
      (l.filter fun v => !(v.id == anchor.id)))

/-- The Graham scan inner pop loop: pop while the candidate is not a
strict left turn from the top segment; `none` models the
`assert!(stack.len() >= 2)` panic. -/
def gsScan (v : Vertex) : List Vertex → Option (List Vertex)
  | s1 :: s0 :: rest =>
    if v.left ⟨s0, s1⟩ then some (v :: s1 :: s0 :: rest)
    else gsScan v (s0 :: rest)
  | _ => none

/-- `GrahamScan::convex_hull`. -/
def grahamScanHull (l : List Vertex) : Option (List Vertex) :=
  match rightmost_lowest_vertex l with
  | none => none
  | some anchor =>
    match min_angle_sorted_vertices l anchor with
    | [] => none
    | first :: rest =>
      match rest.foldl (fun acc v => acc.bind (gsScan v)) (some [first, anchor]) with
      | none => none
      | some stack =>
        some (get_polygon_preserving l (stack.foldl (fun acc v => insert v.id acc) ∅))

/-! ### DivideConquer -/

/-- Cyclic successor in a sub-geometry (a merged hull piece or a
2-vertex segment chain), by id. -/
def geomNext (g : List Vertex) (i : ℕ) : Option Vertex :=
  match g.findIdx? (fun v => v.id == i) with
  | none => none
  | some idx => g.get? ((idx + 1) % g.length)

/-- Cyclic predecessor in a sub-geometry, by id. -/
def geomPrev (g : List Vertex) (i : ℕ) : Option Vertex :=
  match g.findIdx? (fun v => v.id == i) with
  | none => none
  | some idx => g.get? ((idx + g.length - 1) % g.length)

/-- Orient a segment west-to-east (left endpoint by x first, ties by
y). -/
def dirWestEast (seg : VSeg) : VSeg :=
  if decide (seg.v1.x < seg.v2.x) || (decide (seg.v1.x = seg.v2.x) && decide (seg.v1.y ≤ seg.v2.y))
  then seg else seg.reverse

/-- Modelled from the spec: `LineSegment::is_lower_tangent` — the line
through the segment touches the chain without crossing it, every
geometry vertex lying on or above (glossary "tangent line", specialized
to the lower side: all vertices `left_on` the west-to-east direction). -/
def is_lower_tangent (seg : VSeg) (_i : ℕ) (g : List Vertex) : Bool :=
  g.all fun v => v.left_on (dirWestEast seg)

/-- Modelled from the spec: `LineSegment::is_upper_tangent` — all
geometry vertices on or below the line. -/
def is_upper_tangent (seg : VSeg) (_i : ℕ) (g : List Vertex) : Bool :=
  g.all fun v => v.left_on (dirWestEast seg).reverse

/-- The inner `while !lt.is_lower_tangent(&a.id, &left)` walk: move `a`
clockwise (to its predecessor) until tangency, recomputing the segment
each step. -/
def lowerWalkA (l left : List Vertex) : ℕ → Vertex → Vertex → Option Vertex
  | 0, _, _ => none
  | fuel + 1, a, b =>
    match get_line_segment l a.id b.id with
    | none => none
    | some lt =>
      if is_lower_tangent lt a.id left then some a
      else
        match geomPrev left a.id with
        | none => none
        | some a2 => lowerWalkA l left fuel a2 b

/-- The inner walk moving `b` counter-clockwise (to its successor). -/
def lowerWalkB (l right : List Vertex) : ℕ → Vertex → Vertex → Option Vertex
  | 0, _, _ => none
  | fuel + 1, a, b =>
    match get_line_segment l a.id b.id with
    | none => none
    | some lt =>
      if is_lower_tangent lt b.id right then some b
      else
        match geomNext right b.id with
        | none => none
        | some b2 => lowerWalkB l right fuel a b2

/-- `DivideConquer::lower_tangent_vertices`: the nested while loops. -/
def lower_tangent_vertices (l left right : List Vertex) :
    ℕ → Vertex → Vertex → Option (Vertex × Vertex)
  | 0, _, _ => none
  | fuel + 1, a, b =>
    match get_line_segment l a.id b.id with
    | none => none
    | some lt =>
      if is_lower_tangent lt a.id left && is_lower_tangent lt b.id right then some (a, b)
      else
        match lowerWalkA l left (left.length + 1) a b with
        | none => none
        | some a2 =>
          match lowerWalkB l right (right.length + 1) a2 b with
          | none => none
          | some b2 => lower_tangent_vertices l left right fuel a2 b2

/-- Upper-tangent walk for `a` (counter-clockwise, successor). -/
def upperWalkA (l left : List Vertex) : ℕ → Vertex → Vertex → Option Vertex
  | 0, _, _ => none
  | fuel + 1, a, b =>
    match get_line_segment l a.id b.id with
    | none => none
    | some ut =>
      if is_upper_tangent ut a.id left then some a
      else
        match geomNext left a.id with
        | none => none
        | some a2 => upperWalkA l left fuel a2 b

/-- Upper-tangent walk for `b` (clockwise, predecessor). -/
def upperWalkB (l right : List Vertex) : ℕ → Vertex → Vertex → Option Vertex
  | 0, _, _ => none
  | fuel + 1, a, b =>
    match get_line_segment l a.id b.id with
    | none => none
    | some ut =>
      if is_upper_tangent ut b.id right then some b
      else
        match geomPrev right b.id with
        | none => none
        | some b2 => upperWalkB l right fuel a b2

/-- `DivideConquer::upper_tangent_vertices`. -/
def upper_tangent_vertices (l left right : List Vertex) :
    ℕ → Vertex → Vertex → Option (Vertex × Vertex)
  | 0, _, _ => none
  | fuel + 1, a, b =>
    match get_line_segment l a.id b.id with
    | none => none
    | some ut =>
      if is_upper_tangent ut a.id left && is_upper_tangent ut b.id right then some (a, b)
      else
        match upperWalkA l left (left.length + 1) a b with
        | none => none
        | some a2 =>
          match upperWalkB l right (right.length + 1) a2 b with
          | none => none
          | some b2 => upper_tangent_vertices l left right fuel a2 b2

/-- Walk a sub-geometry chain from `v` to `target` along successors,
inclusive (`DivideConquer::extract_boundary`'s two while loops). -/
def chainNext (g : List Vertex) : ℕ → ℕ → ℕ → Option (List ℕ)
  | 0, _, _ => none
  | fuel + 1, v, target =>
    if v == target then some [target]
    else
      match geomNext g v with
      | none => none
      | some w => (chainNext g fuel w.id target).map fun rest => v :: rest

/-- `DivideConquer::extract_boundary`: chain on B from the lower to the
upper tangent vertex, then chain on A from the upper to the lower. -/
def extract_boundary (a b : List Vertex) (lta ltb uta utb : ℕ) : Option (List ℕ) :=
  match chainNext b (b.length + 1) ltb utb, chainNext a (a.length + 1) uta lta with
  | some cb, some ca => some (cb ++ ca)
  | _, _ => none

/-- `DivideConquer::merge`: tangent lines between the two pieces, then
the outer boundary.  `none` models the `assert!` panics (piece sizes,
merged size) and exhausted walks. -/
def dcMerge (l : List Vertex) (left_ids right_ids : List ℕ) : Option (List ℕ) :=
  if !(left_ids.length ≥ 3 || left_ids.length == 2) then none
  else if !(right_ids.length ≥ 3 || right_ids.length == 2) then none
  else
    let lgeom := get_polygon_ordered l left_ids
    let rgeom := get_polygon_ordered l right_ids
    match lowest_rightmost_vertex lgeom, lowest_leftmost_vertex rgeom,
        highest_rightmost_vertex lgeom, highest_leftmost_vertex rgeom with
    | some la, some lb, some ua, some ub =>
      match lower_tangent_vertices l lgeom rgeom (l.length + 2) la lb,
          upper_tangent_vertices l lgeom rgeom (l.length + 2) ua ub with
      | some lpair, some upair =>
        match extract_boundary lgeom rgeom lpair.1.id lpair.2.id upair.1.id upair.2.id with
        | some merged => if merged.length ≥ 3 then some merged else none
        | none => none
      | _, _ => none
    | _, _, _, _ => none

/-- The `while merge_stack.len() > 1` loop. -/
def dcMergeAll (l : List Vertex) : ℕ → List (List ℕ) → Option (List (List ℕ))
  | 0, _ => none
  | fuel + 1, ms =>
    match ms with
    | right_ids :: left_ids :: rest =>
      match dcMerge l left_ids right_ids with
      | none => none
      | some merged => dcMergeAll l fuel (merged :: rest)
    | _ => some ms

/-- The `while !split_stack.is_empty()` loop of
`DivideConquer::convex_hull`, fueled; split chunks of exactly 3 ids are
re-sorted by VertexId (the source's CCW fixup), the split stack stays
right-biased and the merge stack left-biased. -/
def dcLoop (l : List Vertex) : ℕ → List (List ℕ) → List (List ℕ) → Option (List ℕ)
  | 0, _, _ => none
  | fuel + 1, split_stack, merge_stack =>
    match split_stack with
    | [] =>
      match merge_stack with
      | [ids] => some ids
      | _ => none
    | ids :: srest =>
      let nl := ids.length / 2
      let left_ids0 := ids.take nl
      let right_ids0 := ids.drop nl
      let left_ids := if left_ids0.length == 3
        then sortByB (fun i j : ℕ => decide (i ≤ j)) left_ids0 else left_ids0
      let right_ids := if right_ids0.length == 3
        then sortByB (fun i j : ℕ => decide (i ≤ j)) right_ids0 else right_ids0
      if ids.length < 2 then none
      else if ids.length % 2 != 0 && !(decide (left_ids.length < right_ids.length)) then none
      else
        let next := if left_ids.length ≤ 3 && right_ids.length ≤ 3 then
            (srest, right_ids :: left_ids :: merge_stack)
          else if left_ids.length ≤ 3 then
            (right_ids :: srest, left_ids :: merge_stack)
          else
            (left_ids :: right_ids :: srest, merge_stack)
        match dcMergeAll l (next.2.length + 1) next.2 with
        | none => none
        | some m3 => dcLoop l fuel next.1 m3

/-- Modelled from the spec: `Polygon::clean_collinear` — drop each hull
vertex collinear with its cyclic neighbors, collapsing collinear chains
to their extreme endpoints (§4.5's output contract cleanup). -/
def clean_collinear (h : List Vertex) : List Vertex :=
  h.filter fun v =>
    match geomPrev h v.id, geomNext h v.id with
    | some pv, some nv => !(Triangle.mk pv.coords v.coords nv.coords).has_collinear_points
    | _, _ => true

/-- `DivideConquer::convex_hull`: a 3-vertex polygon is returned as an
unchanged clone; otherwise split the x-sorted ids (ties by decreasing
y), merge with tangent lines, restrict the cycle to the merged ids and
clean collinear vertices. -/
def divideConquerHull (l : List Vertex) : Option (List Vertex) :=
  if l.length == 3 then some l
  else
    let ids := (sortByB (fun v w : Vertex => decide (v.x < w.x)
        || (decide (v.x = w.x) && decide (v.y ≥ w.y))) l).map Vertex.id
    match dcLoop l (4 * l.length + 8) [ids] [] with
    | none => none
    | some hull_ids =>
      if hull_ids.length ≥ 3 then
        some (clean_collinear (get_polygon_preserving l hull_ids.toFinset))
      else none

/-- Claim side for C2: a counter-clockwise boundary cycle (positive
shoelace sum). -/
def ccwCycle (h : List Vertex) : Prop :=
  0 < shoelace (h.map Vertex.coords)

/-- The quadrilateral `(0,0), (2,0), (4,0), (3,4)`: a simple CCW
polygon with a vertex lying on the segment joining the two x-extreme
vertices. -/
def qVertices : List Vertex :=
  [⟨0, 0, 0⟩, ⟨1, 2, 0⟩, ⟨2, 4, 0⟩, ⟨3, 3, 4⟩]

/-- A clockwise right triangle `(0,0), (0,4), (3,0)`. -/
def cwTriVertices : List Vertex :=
  [⟨0, 0, 0⟩, ⟨1, 0, 4⟩, ⟨2, 3, 0⟩]

/-! ## Theorems for claims C3 and C10 -/

/-- C3: `Point::between(p, a, b)` is claimed to hold iff `p` is
collinear with `a`,`b` and lies in the CLOSED interval on the chosen
axis, so in particular endpoint `b` itself would satisfy `between`
relative to segment `a`-`b`.  The code uses half-open Rust ranges and
returns `false` for the endpoint whose coordinate is the maximum on the
chosen axis: at `a = (0,0)`, `b = (2,2)`, `p = b` the claimed predicate
holds but the code answers `false`. -/
theorem C3_between_excludes_max_endpoint :
    Point.between ⟨2, 2⟩ ⟨0, 0⟩ ⟨2, 2⟩ = false ∧
    betweenClosedClaim ⟨2, 2⟩ ⟨0, 0⟩ ⟨2, 2⟩ := by
  refine ⟨by decide, by decide, ?_⟩
  simp only [betweenClosedClaim]
  norm_num [min_def, max_def]

/-- C10: whenever the three corners of a triangle are collinear or
duplicated (`has_collinear_points`, i.e. zero area), `Triangle::contains`
answers `false` for every query point, including the corners themselves. -/
theorem C10_degenerate_triangle_contains_nothing (t : Triangle) (p : Point)
    (h : t.has_collinear_points = true) : t.contains p = false := by
  unfold Triangle.contains
  simp [h]

/-- Witness for C10 at the degenerate triangle `(0,0),(1,1),(2,2)` and a
query point equal to one of its corners. -/
theorem C10_degenerate_triangle_contains_nothing_witness :
    (Triangle.mk ⟨0, 0⟩ ⟨1, 1⟩ ⟨2, 2⟩).has_collinear_points = true ∧
    (Triangle.mk ⟨0, 0⟩ ⟨1, 1⟩ ⟨2, 2⟩).contains ⟨0, 0⟩ = false :=
  ⟨by decide, C10_degenerate_triangle_contains_nothing _ _ (by decide)⟩

/-! ## Symmetry lemmas for the segment predicates -/

/-- Swapping the first two corners negates the signed area. -/
theorem Triangle.area_swap12 (a b p : Point) :
    (Triangle.mk b a p).area = -(Triangle.mk a b p).area := by
  simp only [Triangle.area]
  ring

/-- Swapping the first two corners preserves collinearity. -/
theorem Triangle.collinear_swap12 (a b p : Point) :
    (Triangle.mk b a p).has_collinear_points = (Triangle.mk a b p).has_collinear_points := by
  simp only [Triangle.has_collinear_points]
  refine decide_eq_decide.mpr ?_
  rw [Triangle.area_swap12 a b p]
  exact neg_eq_zero

/-- Reversing the segment flips strict leftness when the three points
are not collinear. -/
theorem Point.left_reverse (p u v : Point) (h : (Triangle.mk u v p).area ≠ 0) :
    p.left ⟨v, u⟩ = !(p.left ⟨u, v⟩) := by
  show decide ((Triangle.mk v u p).area > 0) = !decide ((Triangle.mk u v p).area > 0)
  rw [← decide_not]
  refine decide_eq_decide.mpr ?_
  rw [Triangle.area_swap12 u v p]
  constructor
  · intro hh
    intro hpos
    linarith
  · intro hh
    have hle : (Triangle.mk u v p).area ≤ 0 := not_lt.mp hh
    have : (Triangle.mk u v p).area < 0 := lt_of_le_of_ne hle h
    linarith

/-- `Point::between` is symmetric in the two segment endpoints. -/
theorem Point.between_symm (p a b : Point) : p.between a b = p.between b a := by
  unfold Point.between
  rw [show (Triangle.mk b a p).has_collinear_points = (Triangle.mk a b p).has_collinear_points
      from Triangle.collinear_swap12 a b p]
  rw [show LineSegment.is_vertical ⟨b, a⟩ = LineSegment.is_vertical ⟨a, b⟩ from
      decide_eq_decide.mpr eq_comm]
  cases hcol : (Triangle.mk a b p).has_collinear_points
  · rfl
  · cases hvert : LineSegment.is_vertical ⟨a, b⟩
    · simp only [Bool.not_true, Bool.false_eq_true, if_false, hvert]
      exact decide_eq_decide.mpr or_comm
    · simp only [Bool.not_true, Bool.false_eq_true, if_false, hvert, if_true]
      exact decide_eq_decide.mpr or_comm

/-- The proper-crossing test is symmetric in the second segment's
endpoint order. -/
theorem properIntersect_swap_right (a b c d : Point) :
    properIntersect a b d c = properIntersect a b c d := by
  unfold properIntersect
  rw [Triangle.collinear_swap12 c d a, Triangle.collinear_swap12 c d b]
  have g : ((Triangle.mk a b d).has_collinear_points || (Triangle.mk a b c).has_collinear_points
        || (Triangle.mk c d a).has_collinear_points || (Triangle.mk c d b).has_collinear_points)
      = ((Triangle.mk a b c).has_collinear_points || (Triangle.mk a b d).has_collinear_points
        || (Triangle.mk c d a).has_collinear_points || (Triangle.mk c d b).has_collinear_points) := by
    cases (Triangle.mk a b c).has_collinear_points <;>
      cases (Triangle.mk a b d).has_collinear_points <;> simp
  rw [g]
  by_cases hg : ((Triangle.mk a b c).has_collinear_points || (Triangle.mk a b d).has_collinear_points
        || (Triangle.mk c d a).has_collinear_points || (Triangle.mk c d b).has_collinear_points) = true
  · simp [hg]
  · rw [if_neg hg, if_neg hg]
    rw [Bool.not_eq_true] at hg
    simp only [Bool.or_eq_false_iff] at hg
    obtain ⟨⟨⟨-, -⟩, h3⟩, h4⟩ := hg
    have hne1 : (Triangle.mk c d a).area ≠ 0 := by
      simpa [Triangle.has_collinear_points, decide_eq_false_iff_not] using h3
    have hne2 : (Triangle.mk c d b).area ≠ 0 := by
      simpa [Triangle.has_collinear_points, decide_eq_false_iff_not] using h4
    rw [Point.left_reverse a c d hne1, Point.left_reverse b c d hne2]
    cases hx : c.left ⟨a, b⟩ <;> cases hy : d.left ⟨a, b⟩ <;>
      cases hz : a.left ⟨c, d⟩ <;> cases hw : b.left ⟨c, d⟩ <;> simp

/-- Segment intersection is invariant under reversing the queried
segment. -/
theorem VSeg.intersects_symm (e : VSeg) (a b : Vertex) :
    e.intersects ⟨b, a⟩ = e.intersects ⟨a, b⟩ := by
  unfold VSeg.intersects
  rw [show (VSeg.mk b a).v1 = b from rfl, show (VSeg.mk b a).v2 = a from rfl,
      show (VSeg.mk a b).v1 = a from rfl, show (VSeg.mk a b).v2 = b from rfl]
  rw [properIntersect_swap_right]
  rw [Point.between_symm e.v1.coords b.coords a.coords,
      Point.between_symm e.v2.coords b.coords a.coords]
  cases properIntersect e.v1.coords e.v2.coords a.coords b.coords <;>
    cases b.coords.between e.v1.coords e.v2.coords <;>
    cases a.coords.between e.v1.coords e.v2.coords <;> simp

/-- Endpoint connectivity is invariant under reversing the queried
segment. -/
theorem VSeg.connected_to_symm (e : VSeg) (a b : Vertex) :
    e.connected_to ⟨b, a⟩ = e.connected_to ⟨a, b⟩ := by
  unfold VSeg.connected_to
  cases e.v1 == a <;> cases e.v1 == b <;> cases e.v2 == a <;> cases e.v2 == b <;> simp

/-- The edge-crossing scan of `Polygon::diagonal` is symmetric in the
diagonal's endpoint order. -/
theorem Polygon.die_symm (p : Polygon) (a b : Vertex) :
    p.diagonal_internal_external ⟨b, a⟩ = p.diagonal_internal_external ⟨a, b⟩ := by
  unfold Polygon.diagonal_internal_external
  induction p.edges with
  | nil => rfl
  | cons e es ih =>
    simp only [List.all_cons, ih, VSeg.connected_to_symm, VSeg.intersects_symm]

/-! ## Theorems for claims C8, C6 and C5 -/

/-- C8: for vertices `a`, `b` that belong to the polygon (their
neighbor lookups succeed — true for every vertex of a valid simple
polygon), `Polygon::diagonal` answers the same for segment `a -> b` and
for the reversed segment `b -> a`. -/
theorem C8_diagonal_symmetric (p : Polygon) (a b : Vertex)
    (ha : (p.neighborsOf a).isSome = true) (hb : (p.neighborsOf b).isSome = true) :
    p.diagonal ⟨a, b⟩ = p.diagonal ⟨b, a⟩ := by
  have incone_eq : ∀ u w : Vertex, p.in_cone ⟨u, w⟩ = (p.neighborsOf u).map fun pn =>
      if pn.1.left_on ⟨u, pn.2⟩ then pn.1.left ⟨u, w⟩ && pn.2.left ⟨w, u⟩
      else !(pn.2.left_on ⟨u, w⟩ && pn.1.left_on ⟨w, u⟩) := fun u w => rfl
  have sx : (p.in_cone ⟨a, b⟩).isSome = true := by
    obtain ⟨pa, hpa⟩ := Option.isSome_iff_exists.mp ha
    rw [incone_eq a b, hpa]
    rfl
  have sy : (p.in_cone ⟨b, a⟩).isSome = true := by
    obtain ⟨pb, hpb⟩ := Option.isSome_iff_exists.mp hb
    rw [incone_eq b a, hpb]
    rfl
  obtain ⟨x, hx⟩ := Option.isSome_iff_exists.mp sx
  obtain ⟨y, hy⟩ := Option.isSome_iff_exists.mp sy
  unfold Polygon.diagonal
  rw [show (VSeg.mk a b).reverse = ⟨b, a⟩ from rfl, show (VSeg.mk b a).reverse = ⟨a, b⟩ from rfl]
  rw [hx, hy]
  cases x <;> cases y <;> simp [Polygon.die_symm]

/-- Witness for C8 on the square, with the non-adjacent diagonal pair
`(0,0)` and `(4,4)`. -/
theorem C8_diagonal_symmetric_witness :
    (squarePoly.neighborsOf ⟨0, 0, 0⟩).isSome = true ∧
    (squarePoly.neighborsOf ⟨2, 4, 4⟩).isSome = true ∧
    squarePoly.diagonal ⟨⟨0, 0, 0⟩, ⟨2, 4, 4⟩⟩ = squarePoly.diagonal ⟨⟨2, 4, 4⟩, ⟨0, 0, 0⟩⟩ :=
  ⟨by decide, by decide,
    C8_diagonal_symmetric squarePoly ⟨0, 0, 0⟩ ⟨2, 4, 4⟩ (by decide) (by decide)⟩

/-- C6: the claim says `Polygon::new` refuses to build a polygon from
fewer than 3 vertices.  In the code only the EMPTY input fails (the
`vertices[0]` index panics); for one or two vertices no window triple
exists, so construction succeeds and returns a `Polygon` whose neighbor
map is empty — the `expect("Polygon should have at least 3 vertices")`
message documents the intent but the check never fires. -/
theorem C6_polygon_new_accepts_fewer_than_three_vertices :
    Polygon.new [] = none ∧
    Polygon.new [⟨0, 0, 0⟩] = some ⟨⟨0, 0, 0⟩, []⟩ ∧
    Polygon.new [⟨0, 0, 0⟩, ⟨1, 1, 1⟩] = some ⟨⟨0, 0, 0⟩, []⟩ := by
  refine ⟨rfl, by decide, by decide⟩

/-- C5: on an input polygon whose full ear-clipping pass finds no ear
(the self-intersecting bowtie), `Polygon::triangulation` does not
report an error: the pass leaves the working map unchanged (as a finite
map; `bowtiePassMap` is its re-ordered association list, a fixpoint of
the pass) and the outer loop re-runs the identical pass forever.  The
fueled embedding therefore returns `none` — "still running" — for every
fuel value. -/
theorem C5_triangulation_loops_forever_without_ears :
    findEar bowtiePoly bowtiePoly.neighbors.length bowtiePoly.neighbors
        bowtiePoly.anchor bowtiePoly.anchor = some (Sum.inr bowtiePassMap) ∧
    ∀ fuel, bowtiePoly.triangulation fuel = none := by
  have hpass : findEar bowtiePoly 4 bowtiePoly.neighbors
      bowtiePoly.anchor bowtiePoly.anchor = some (Sum.inr bowtiePassMap) := by decide
  have hfix : findEar bowtiePoly 4 bowtiePassMap
      bowtiePoly.anchor bowtiePoly.anchor = some (Sum.inr bowtiePassMap) := by decide
  have hlen : bowtiePassMap.length = 4 := by decide
  have hlen0 : bowtiePoly.neighbors.length = 4 := by decide
  have key : ∀ fuel, triangulationAux bowtiePoly fuel bowtiePassMap bowtiePoly.anchor [] = none := by
    intro fuel
    induction fuel with
    | zero => rfl
    | succ n ih =>
      simp only [triangulationAux, hlen, hfix]
      simpa using ih
  constructor
  · rw [hlen0]
    exact hpass
  · intro fuel
    cases fuel with
    | zero => rfl
    | succ n =>
      unfold Polygon.triangulation
      simp only [triangulationAux, hlen0, hpass]
      simpa using key n

/-! ## Shoelace lemmas for claim C7 -/

/-- The cross term is antisymmetric. -/
theorem crossD_antisymm (a b : Point) : crossD b a = -crossD a b := by
  unfold crossD
  ring

/-- The triangle double area against an apex decomposes into cross
terms. -/
theorem tri_double_area_decomp (P A B : Point) :
    (Triangle.mk P A B).double_area = crossD A B + (crossD P A - crossD P B) := by
  simp only [Triangle.double_area, crossD]
  ring

theorem lastP_cons_cons (a b : Point) (t : List Point) (d : Point) :
    lastP (a :: b :: t) d = lastP (b :: t) d := by
  simp [lastP, List.getLast?_cons_cons]

theorem lastP_concat (xs : List Point) (z d : Point) :
    lastP (xs ++ [z]) d = z := by
  simp [lastP, List.getLast?_concat]

theorem lastP_reverse (l : List Point) (d : Point) :
    lastP l.reverse d = headP l d := by
  simp [lastP, headP, List.getLast?_reverse]

/-- Splitting a path sum at an interior point. -/
theorem pathSum_append (xs : List Point) (y : Point) (ys : List Point) (d : Point)
    (hxs : xs ≠ []) :
    pathSum (xs ++ y :: ys) = pathSum xs + crossD (lastP xs d) y + pathSum (y :: ys) := by
  induction xs with
  | nil => exact absurd rfl hxs
  | cons a t ih =>
    cases t with
    | nil =>
      show pathSum (a :: y :: ys) = pathSum [a] + crossD (lastP [a] d) y + pathSum (y :: ys)
      show crossD a y + pathSum (y :: ys) = 0 + crossD a y + pathSum (y :: ys)
      ring
    | cons b t2 =>
      have h2 : (b :: t2 : List Point) ≠ [] := by simp
      calc pathSum ((a :: b :: t2) ++ y :: ys)
          = crossD a b + pathSum ((b :: t2) ++ y :: ys) := rfl
        _ = crossD a b + (pathSum (b :: t2) + crossD (lastP (b :: t2) d) y + pathSum (y :: ys)) := by
              rw [ih h2]
        _ = pathSum (a :: b :: t2) + crossD (lastP (a :: b :: t2) d) y + pathSum (y :: ys) := by
              rw [lastP_cons_cons]
              show crossD a b + (pathSum (b :: t2) + crossD (lastP (b :: t2) d) y + pathSum (y :: ys))
                  = crossD a b + pathSum (b :: t2) + crossD (lastP (b :: t2) d) y + pathSum (y :: ys)
              ring

/-- Reversing a polyline negates its path sum. -/
theorem pathSum_reverse (l : List Point) (d : Point) :
    pathSum l.reverse = -pathSum l := by
  induction l with
  | nil => simp [pathSum]
  | cons a t ih =>
    cases t with
    | nil => simp [pathSum]
    | cons b t2 =>
      have h2 : ((b :: t2 : List Point)).reverse ≠ [] := by simp
      have hrev : (a :: b :: t2 : List Point).reverse = (b :: t2).reverse ++ a :: [] := by simp
      rw [hrev, pathSum_append (b :: t2).reverse a [] d h2, lastP_reverse (b :: t2) d, ih]
      show -pathSum (b :: t2) + crossD b a + pathSum [a] = -pathSum (a :: b :: t2)
      show -pathSum (b :: t2) + crossD b a + 0 = -(crossD a b + pathSum (b :: t2))
      rw [crossD_antisymm a b]
      ring

/-- Rotating the cycle by one step preserves the shoelace sum. -/
theorem shoelace_rotate_one (l : List Point) : shoelace (l.rotate 1) = shoelace l := by
  cases l with
  | nil => rfl
  | cons a t =>
    rw [List.rotate_cons_succ, List.rotate_zero]
    cases t with
    | nil => rfl
    | cons b t2 =>
      unfold shoelace
      have hts : ((((b :: t2) ++ [a] : List Point))).take 1 = [b] := rfl
      have hts2 : ((a :: b :: t2 : List Point)).take 1 = [a] := rfl
      rw [hts, hts2]
      have h1 : ((b :: t2) ++ [a] : List Point) ≠ [] := by simp
      have h2 : (b :: t2 : List Point) ≠ [] := by simp
      rw [pathSum_append ((b :: t2) ++ [a]) b [] a h1, lastP_concat (b :: t2) a a]
      have e3 : ((a :: b :: t2) ++ [a] : List Point) = a :: ((b :: t2) ++ [a]) := rfl
      rw [e3]
      have e4 : pathSum (a :: ((b :: t2) ++ [a])) = crossD a b + pathSum ((b :: t2) ++ [a]) := rfl
      rw [e4, pathSum_append (b :: t2) a [] a h2]
      simp only [pathSum]
      ring

/-- Rotating the cycle preserves the shoelace sum. -/
theorem shoelace_rotate (l : List Point) (k : ℕ) : shoelace (l.rotate k) = shoelace l := by
  induction k generalizing l with
  | zero => rw [List.rotate_zero]
  | succ n ih =>
    have hsplit : l.rotate (n + 1) = (l.rotate 1).rotate n := by
      rw [List.rotate_rotate, Nat.add_comm]
    rw [hsplit, ih (l.rotate 1), shoelace_rotate_one]

/-- Reversing the cycle negates the shoelace sum. -/
theorem shoelace_reverse (l : List Point) : shoelace l.reverse = -shoelace l := by
  cases l with
  | nil => simp [shoelace, pathSum]
  | cons a t =>
    cases t with
    | nil =>
      show shoelace [a] = -shoelace [a]
      simp [shoelace, pathSum, crossD]
    | cons b t2 =>
      obtain ⟨x, xs, hx⟩ : ∃ x xs, (b :: t2 : List Point).reverse = x :: xs := by
        cases hrev : (b :: t2 : List Point).reverse with
        | nil => simp at hrev
        | cons x xs => exact ⟨x, xs, rfl⟩
      have hlx : lastP (b :: t2) a = x := by
        unfold lastP
        rw [← List.head?_reverse, hx]
        rfl
      unfold shoelace
      have hrev1 : (a :: b :: t2 : List Point).reverse = (b :: t2).reverse ++ [a] := by simp
      rw [hrev1]
      have htake : (((b :: t2 : List Point)).reverse ++ [a]).take 1 = [x] := by
        rw [hx]
        rfl
      rw [htake]
      have h1 : ((b :: t2).reverse ++ [a] : List Point) ≠ [] := by simp
      rw [pathSum_append ((b :: t2).reverse ++ [a]) x [] a h1, lastP_concat (b :: t2).reverse a a]
      have h2 : ((b :: t2 : List Point)).reverse ≠ [] := by simp
      rw [pathSum_append (b :: t2).reverse a [] a h2, lastP_reverse (b :: t2) a,
        pathSum_reverse (b :: t2) a]
      have hts2 : ((a :: b :: t2 : List Point)).take 1 = [a] := rfl
      rw [hts2]
      have e3 : ((a :: b :: t2) ++ [a] : List Point) = a :: ((b :: t2) ++ [a]) := rfl
      rw [e3]
      have e4 : pathSum (a :: ((b :: t2) ++ [a])) = crossD a b + pathSum ((b :: t2) ++ [a]) := rfl
      rw [e4]
      have h3 : (b :: t2 : List Point) ≠ [] := by simp
      rw [pathSum_append (b :: t2) a [] a h3, hlx]
      have hhb : headP (b :: t2) a = b := rfl
      rw [hhb, crossD_antisymm a b, crossD_antisymm a x]
      simp only [pathSum]
      ring

/-- Sums of pointwise sums split. -/
theorem sum_map_add {α : Type} (f g : α → ℚ) (l : List α) :
    (l.map fun q => f q + g q).sum = (l.map f).sum + (l.map g).sum := by
  induction l with
  | nil => simp
  | cons a t ih =>
    simp only [List.map_cons, List.sum_cons, ih]
    ring

/-- Sums of pointwise differences over a zip split into the two column
sums. -/
theorem zipSum_sub {α : Type} (f : α → ℚ) (xs ys : List α) (h : xs.length = ys.length) :
    ((xs.zip ys).map fun q => f q.1 - f q.2).sum = (xs.map f).sum - (ys.map f).sum := by
  induction xs generalizing ys with
  | nil =>
    cases ys with
    | nil => simp
    | cons b u => simp at h
  | cons a t ih =>
    cases ys with
    | nil => simp at h
    | cons b u =>
      simp only [List.zip_cons_cons, List.map_cons, List.sum_cons]
      rw [ih u (by simpa using h)]
      ring

/-- The zip of a list against its tail extended by `w` sums the path
cross terms of the polyline closed by `w`. -/
theorem zip_shift_sum : ∀ (xs : List Point) (w : Point),
    ((xs.zip (xs.tail ++ [w])).map fun q => crossD q.1 q.2).sum = pathSum (xs ++ [w])
  | [], _ => by simp [pathSum]
  | [a], w => by simp [pathSum, List.zip]
  | a :: b :: t2, w => by
    have ih := zip_shift_sum (b :: t2) w
    simp only [List.tail_cons] at ih
    show crossD a b + (((b :: t2).zip (t2 ++ [w])).map fun q => crossD q.1 q.2).sum
        = crossD a b + pathSum ((b :: t2) ++ [w])
    rw [ih]

/-- Summing the cross terms over the cyclic successor pairs yields the
shoelace sum. -/
theorem zipSum_cyclic (m : List Point) :
    ((m.zip (m.rotate 1)).map fun q => crossD q.1 q.2).sum = shoelace m := by
  cases m with
  | nil => rfl
  | cons a t =>
    rw [List.rotate_cons_succ, List.rotate_zero]
    have : ((a :: t : List Point)).tail ++ [a] = t ++ [a] := rfl
    rw [show (t ++ [a] : List Point) = (a :: t).tail ++ [a] from rfl, zip_shift_sum (a :: t) a]
    rfl

/-- `Polygon::double_area` computes the shoelace sum of the boundary
cycle, for any polygon whose `edges()` walk traverses the cycle `l` —
in particular independently of the anchor. -/
theorem double_area_eq_shoelace (p : Polygon) (l : List Vertex)
    (h : p.edges = cyclicSegs l) :
    p.double_area = shoelace (l.map Vertex.coords) := by
  unfold Polygon.double_area
  rw [h]
  unfold cyclicSegs
  rw [List.map_map]
  have hcongr : ((l.zip (l.rotate 1)).map
        ((fun e => (Triangle.mk p.anchor.coords e.v1.coords e.v2.coords).double_area)
          ∘ fun q => VSeg.mk q.1 q.2))
      = ((l.zip (l.rotate 1)).map fun q : Vertex × Vertex =>
          crossD q.1.coords q.2.coords
            + (crossD p.anchor.coords q.1.coords - crossD p.anchor.coords q.2.coords)) := by
    refine List.map_congr_left ?_
    intro q hq
    show (Triangle.mk p.anchor.coords q.1.coords q.2.coords).double_area = _
    rw [tri_double_area_decomp]
  rw [hcongr, sum_map_add (fun q : Vertex × Vertex => crossD q.1.coords q.2.coords)
      (fun q : Vertex × Vertex => crossD p.anchor.coords q.1.coords
        - crossD p.anchor.coords q.2.coords) (l.zip (l.rotate 1))]
  have htele : ((l.zip (l.rotate 1)).map fun q : Vertex × Vertex =>
      crossD p.anchor.coords q.1.coords - crossD p.anchor.coords q.2.coords).sum = 0 := by
    rw [zipSum_sub (fun v => crossD p.anchor.coords v.coords) l (l.rotate 1)
        (by rw [List.length_rotate])]
    have hperm : (( l.rotate 1).map fun v => crossD p.anchor.coords v.coords).sum
        = (l.map fun v => crossD p.anchor.coords v.coords).sum :=
      ((l.rotate_perm 1).map fun v => crossD p.anchor.coords v.coords).sum_eq
    rw [hperm]
    ring
  rw [htele, add_zero]
  have hzip : (l.zip (l.rotate 1)).map (fun q : Vertex × Vertex => crossD q.1.coords q.2.coords)
      = ((l.map Vertex.coords).zip ((l.map Vertex.coords).rotate 1)).map
          fun q : Point × Point => crossD q.1 q.2 := by
    rw [← List.map_rotate, List.zip_map, List.map_map]
    rfl
  rw [hzip, zipSum_cyclic]

/-! ## Characterization of the `Polygon::new` neighbor map and edge walk

For a duplicate-free vertex list of length at least 3, the constructed
neighbor map stores, for every vertex, exactly its cyclic predecessor
and successor, and the `edges()` walk starting at the anchor traverses
the construction cycle. -/

theorem find_eraseP_ne (m : NbrMap) (k kp : Vertex) (hne : k ≠ kp) :
    (m.eraseP fun e => e.1 == kp).find? (fun e => e.1 == k)
      = m.find? (fun e => e.1 == k) := by
  induction m with
  | nil => rfl
  | cons e m ih =>
    by_cases he : e.1 = kp
    · rw [List.eraseP_cons_of_pos (by simpa using he)]
      have hek : (e.1 == k) = false := by
        simp only [beq_eq_false_iff_ne]
        intro h
        exact hne (h ▸ he)
      rw [List.find?]
      rw [hek]
    · rw [List.eraseP_cons_of_neg (by simpa using he)]
      rw [List.find?, List.find?]
      cases hek : (e.1 == k) with
      | true => rfl
      | false => exact ih

theorem nbrFind_insert (m : NbrMap) (k kp : Vertex) (v : Vertex × Vertex) :
    nbrFind (nbrInsert m kp v) k = if k = kp then some v else nbrFind m k := by
  unfold nbrFind nbrInsert
  by_cases hk : k = kp
  · subst hk
    simp [List.find?]
  · rw [List.find?]
    have : ((kp, v).1 == k) = false := by
      simp only [beq_eq_false_iff_ne]
      exact fun h => hk h.symm
    rw [this, if_neg hk, find_eraseP_ne m k kp hk]

theorem nbrInsert_fresh (m : NbrMap) (k : Vertex) (v : Vertex × Vertex)
    (h : ∀ e ∈ m, e.1 ≠ k) :
    nbrInsert m k v = (k, v) :: m := by
  unfold nbrInsert
  congr 1
  apply List.eraseP_of_forall_not
  intro e he
  simpa using h e he

theorem nbrInsert_fresh_length (m : NbrMap) (k : Vertex) (v : Vertex × Vertex)
    (h : ∀ e ∈ m, e.1 ≠ k) :
    (nbrInsert m k v).length = m.length + 1 := by
  rw [nbrInsert_fresh m k v h, List.length_cons]

theorem chainLookup_none (xs : List Vertex) (k : Vertex) (h : k ∉ xs.dropLast.tail) :
    chainLookup xs k = none := by
  match xs with
  | [] => rfl
  | [_] => rfl
  | [_, _] => rfl
  | a :: b :: c :: t =>
    have hdl : (a :: b :: c :: t).dropLast.tail = b :: (c :: t).dropLast := by
      rw [List.dropLast_cons₂, List.dropLast_cons₂, List.tail_cons]
    rw [hdl] at h
    rw [chainLookup]
    rw [if_neg (by intro hkb; exact h (by simp [hkb]))]
    apply chainLookup_none (b :: c :: t) k
    rw [List.dropLast_cons₂, List.tail_cons]
    intro hm
    exact h (List.mem_cons_of_mem b hm)

theorem chainLookup_last_none (q : List Vertex) (slv lv : Vertex)
    (hnd : (q ++ [slv, lv]).Nodup) :
    chainLookup (q ++ [slv, lv]) lv = none := by
  apply chainLookup_none
  have hdl : (q ++ [slv, lv]).dropLast = q ++ [slv] := by
    have : q ++ [slv, lv] = (q ++ [slv]) ++ [lv] := by simp
    rw [this, List.dropLast_concat]
  rw [hdl]
  intro hmem
  have hmem2 : lv ∈ q ++ [slv] := List.tail_subset _ hmem
  have : (q ++ [slv, lv]) = (q ++ [slv]) ++ [lv] := by simp
  rw [this] at hnd
  rcases List.nodup_append.mp hnd with ⟨_, _, hdisj⟩
  exact hdisj hmem2 (by simp)

theorem chainLookup_pos (p k nx : Vertex) (r : List Vertex) :
    ∀ q : List Vertex, (q ++ p :: k :: nx :: r).Nodup →
    chainLookup (q ++ p :: k :: nx :: r) k = some (p, nx) := by
  intro q
  induction q with
  | nil =>
    intro _
    rw [List.nil_append, chainLookup, if_pos rfl]
  | cons a q ih =>
    intro hnd
    obtain ⟨y, z, t, hshape⟩ :
        ∃ y z t, q ++ p :: k :: nx :: r = y :: z :: t := by
      match q with
      | [] => exact ⟨p, k, nx :: r, rfl⟩
      | [y] => exact ⟨y, p, k :: nx :: r, rfl⟩
      | y :: z :: q'' => exact ⟨y, z, q'' ++ p :: k :: nx :: r, rfl⟩
    have hktail : k ∈ (q ++ p :: k :: nx :: r).tail := by
      cases q <;> simp
    have hnd2 : (y :: z :: t).Nodup := by
      rw [← hshape]
      exact (List.nodup_cons.mp hnd).2
    have hky : k ≠ y := by
      intro hk
      rw [hshape, List.tail_cons] at hktail
      exact (List.nodup_cons.mp hnd2).1 (hk ▸ hktail)
    rw [List.cons_append, hshape, chainLookup, if_neg hky, ← hshape]
    exact ih (by rw [← hshape] at hnd2; exact hnd2)

theorem foldNbrs_suffix (first lastv slv : Vertex) (pre : List Vertex) :
    ∀ (m : NbrMap),
    (pre ++ [slv, lastv]).Nodup → first ∉ pre ++ [slv, lastv] →
    (∀ e ∈ m, e.1 ∉ (pre ++ [slv, lastv]).tail) →
    (∀ k, nbrFind ((windows3 (pre ++ [slv, lastv])).foldl (newStep first lastv) m) k =
      (match chainLookup (pre ++ [slv, lastv]) k with
      | some pn => some pn
      | none =>
        if 3 ≤ (pre ++ [slv, lastv]).length ∧ k = lastv then some (slv, first)
        else nbrFind m k)) ∧
    ((windows3 (pre ++ [slv, lastv])).foldl (newStep first lastv) m).length
      = m.length + (if 3 ≤ (pre ++ [slv, lastv]).length then (pre ++ [slv, lastv]).tail.length else 0) := by
  induction pre with
  | nil =>
    intro m hnd hf hdisj
    constructor
    · intro k
      show nbrFind m k = _
      have hcl : chainLookup ([] ++ [slv, lastv]) k = none := rfl
      rw [hcl]
      have : ¬(3 ≤ ([] ++ [slv, lastv]).length ∧ k = lastv) := by
        intro ⟨h3, _⟩
        simp at h3
      rw [if_neg this]
    · simp [windows3]
  | cons a preTail ih =>
    intro m hnd hf hdisj
    match preTail with
    | [] =>
      -- xs = [a, slv, lastv]: the single window (a, slv, lastv), both the
      -- middle insert and (since its third component is the last vertex)
      -- the cycle-closing insert for lastv fire; a is not the first vertex.
      have haf : (a == first) = false := by
        simp only [beq_eq_false_iff_ne]
        intro h
        exact hf (by simp [h])
      have hlv : (lastv == lastv) = true := beq_self_eq_true lastv
      have hslv_ne : slv ≠ lastv := by
        simp only [List.cons_append, List.nil_append] at hnd
        have := ((List.nodup_cons.mp hnd).2)
        exact (List.nodup_cons.mp this).1 ∘ fun h => by simp [h]
      have hfold : (windows3 ([a] ++ [slv, lastv])).foldl (newStep first lastv) m
          = nbrInsert (nbrInsert m slv (a, lastv)) lastv (slv, first) := by
        show newStep first lastv m (a, slv, lastv) = _
        simp only [newStep, haf, hlv]
        simp
      constructor
      · intro k
        rw [hfold, nbrFind_insert, nbrFind_insert]
        have hcl : chainLookup ([a] ++ [slv, lastv]) k
            = if k = slv then some (a, lastv) else none := by
          show chainLookup (a :: slv :: lastv :: []) k = _
          rw [chainLookup]
          split <;> rfl
        rw [hcl]
        by_cases hklv : k = lastv
        · rw [if_pos hklv]
          have hkslv : ¬ k = slv := fun h => hslv_ne (h ▸ hklv ▸ rfl)
          rw [if_neg hkslv, if_pos ⟨by simp, hklv⟩]
        · rw [if_neg hklv]
          by_cases hkslv : k = slv
          · rw [if_pos hkslv, if_pos hkslv]
          · rw [if_neg hkslv, if_neg hkslv, if_neg (fun h => hklv h.2)]
      · rw [hfold]
        have h1 : ∀ e ∈ m, e.1 ≠ slv := by
          intro e he h
          exact hdisj e he (by simp [h])
        have h2 : ∀ e ∈ nbrInsert m slv (a, lastv), e.1 ≠ lastv := by
          intro e he h
          rw [nbrInsert_fresh m slv (a, lastv) h1] at he
          rcases List.mem_cons.mp he with he1 | he2
          · exact hslv_ne (by rw [he1] at h; exact h)
          · exact hdisj e he2 (by simp [h])
        rw [nbrInsert_fresh_length _ _ _ h2, nbrInsert_fresh_length _ _ _ h1]
        simp
    | b :: pre' =>
      obtain ⟨c, t, hct⟩ : ∃ c t, pre' ++ [slv, lastv] = c :: t := by
        cases pre' <;> exact ⟨_, _, rfl⟩
      have hxs : (a :: b :: pre') ++ [slv, lastv] = a :: b :: c :: t := by
        simp only [List.cons_append, hct]
      have hxs' : (b :: pre') ++ [slv, lastv] = b :: c :: t := by
        simp only [List.cons_append, hct]
      have hlvt : lastv ∈ t := by
        match pre', hct with
        | [], h =>
          injection h with h1 h2
          rw [← h2]
          simp
        | d :: pre'', h =>
          injection h with h1 h2
          rw [← h2]
          simp
      have hnd' : (b :: c :: t).Nodup := by
        rw [hxs] at hnd
        exact (List.nodup_cons.mp hnd).2
      have haf : (a == first) = false := by
        simp only [beq_eq_false_iff_ne]
        intro h
        exact hf (by simp [h])
      have hclv : (c == lastv) = false := by
        simp only [beq_eq_false_iff_ne]
        intro h
        have hndc : (c :: t).Nodup := (List.nodup_cons.mp hnd').2
        exact (List.nodup_cons.mp hndc).1 (h ▸ hlvt)
      have hblv : b ≠ lastv := by
        intro h
        exact (List.nodup_cons.mp hnd').1 (h ▸ List.mem_cons_of_mem c hlvt)
      have hbtail : b ∉ c :: t := (List.nodup_cons.mp hnd').1
      have hstep : newStep first lastv m (a, b, c) = nbrInsert m b (a, c) := by
        simp only [newStep, haf, hclv]
        simp
      have hwin : windows3 ((a :: b :: pre') ++ [slv, lastv])
          = (a, b, c) :: windows3 ((b :: pre') ++ [slv, lastv]) := by
        rw [hxs, hxs', windows3]
      have hdisj' : ∀ e ∈ nbrInsert m b (a, c), e.1 ∉ ((b :: pre') ++ [slv, lastv]).tail := by
        rw [hxs', List.tail_cons]
        intro e he
        rcases List.mem_cons.mp he with he1 | he2
        · rw [he1]
          exact hbtail
        · have hem : e ∈ m := List.eraseP_subset _ he2
          intro hin
          exact hdisj e hem (by rw [hxs, List.tail_cons]; exact List.mem_cons_of_mem b hin)
      have hih := ih (nbrInsert m b (a, c))
        (by rw [hxs']; exact hnd')
        (by rw [hxs']; intro hfin; exact hf (by rw [hxs]; exact List.mem_cons_of_mem a hfin))
        hdisj'
      have h3xs : 3 ≤ ((a :: b :: pre') ++ [slv, lastv]).length := by
        rw [hxs]
        simp
      have h3xs' : 3 ≤ ((b :: pre') ++ [slv, lastv]).length := by
        rw [hxs']
        have : t ≠ [] := List.ne_nil_of_mem hlvt
        simp only [List.length_cons]
        have := List.length_pos.mpr this
        omega
      constructor
      · intro k
        have hfoldstep : (windows3 ((a :: b :: pre') ++ [slv, lastv])).foldl (newStep first lastv) m
            = (windows3 ((b :: pre') ++ [slv, lastv])).foldl (newStep first lastv)
                (nbrInsert m b (a, c)) := by
          rw [hwin, List.foldl_cons, hstep]
        rw [hfoldstep, hih.1 k]
        have hclxs : chainLookup ((a :: b :: pre') ++ [slv, lastv]) k
            = if k = b then some (a, c) else chainLookup ((b :: pre') ++ [slv, lastv]) k := by
          rw [hxs, hxs', chainLookup]
        rw [hclxs]
        by_cases hkb : k = b
        · rw [if_pos hkb]
          have hclnone : chainLookup ((b :: pre') ++ [slv, lastv]) k = none := by
            apply chainLookup_none
            rw [hxs']
            intro hmem
            have : k ∈ c :: t := by
              have hsub : (b :: c :: t).dropLast.tail ⊆ c :: t := by
                intro x hx
                have hx2 : x ∈ (b :: c :: t).dropLast := List.tail_subset _ hx
                have hx3 : x ∈ b :: c :: t := List.dropLast_subset _ hx2
                rcases List.mem_cons.mp hx3 with h1 | h2
                · exfalso
                  rw [List.dropLast_cons₂, List.tail_cons] at hx
                  have := List.dropLast_subset _ hx
                  exact hbtail (h1 ▸ this)
                · exact h2
              exact hsub hmem
            exact hbtail (hkb ▸ this)
          rw [hclnone]
          rw [if_neg (fun h => hblv (hkb ▸ h.2))]
          rw [nbrFind_insert, if_pos hkb]
        · rw [if_neg hkb]
          cases hcl : chainLookup ((b :: pre') ++ [slv, lastv]) k with
          | some pn => rfl
          | none =>
            show (if 3 ≤ ((b :: pre') ++ [slv, lastv]).length ∧ k = lastv
                then some (slv, first) else nbrFind (nbrInsert m b (a, c)) k) = _
            rw [nbrFind_insert, if_neg hkb]
            by_cases hklv : k = lastv
            · rw [if_pos ⟨h3xs', hklv⟩, if_pos ⟨h3xs, hklv⟩]
            · rw [if_neg (fun h => hklv h.2), if_neg (fun h => hklv h.2)]
      · have hfoldstep : (windows3 ((a :: b :: pre') ++ [slv, lastv])).foldl (newStep first lastv) m
            = (windows3 ((b :: pre') ++ [slv, lastv])).foldl (newStep first lastv)
                (nbrInsert m b (a, c)) := by
          rw [hwin, List.foldl_cons, hstep]
        rw [hfoldstep, hih.2]
        have hbfresh : ∀ e ∈ m, e.1 ≠ b := by
          intro e he h
          exact hdisj e he (by rw [hxs, List.tail_cons, h]; simp)
        rw [nbrInsert_fresh_length _ _ _ hbfresh]
        rw [if_pos h3xs, if_pos h3xs']
        rw [hxs, hxs']
        simp only [List.tail_cons, List.length_cons]
        omega

theorem exists_two_last (xs : List Vertex) (h : 2 ≤ xs.length) :
    ∃ q slv lv, xs = q ++ [slv, lv] := by
  induction xs with
  | nil => simp at h
  | cons a t ih =>
    match t with
    | [] => simp at h
    | [b] => exact ⟨[], a, b, rfl⟩
    | b :: c :: t' =>
      obtain ⟨q, slv, lv, ht⟩ := ih (by simp)
      exact ⟨a :: q, slv, lv, by rw [List.cons_append, ← ht]⟩

theorem getLastD_two_last (l0 slv lv : Vertex) (q : List Vertex) :
    (l0 :: (q ++ [slv, lv])).getLastD l0 = lv := by
  have : l0 :: (q ++ [slv, lv]) = ((l0 :: q) ++ [slv]) ++ [lv] := by simp
  rw [this]
  rw [List.getLastD_eq_getLast?, List.getLast?_concat]
  rfl

theorem polygonOf_nbr (l0 : Vertex) (tl : List Vertex)
    (hnd : (l0 :: tl).Nodup) (h3 : 3 ≤ (l0 :: tl).length) :
    (∀ (u rest : List Vertex) (k : Vertex), l0 :: tl = u ++ k :: rest →
      ∃ pv, nbrFind (polygonOf (l0 :: tl)).neighbors k
          = some (pv, rest.head?.getD l0)) ∧
    (polygonOf (l0 :: tl)).neighbors.length = tl.length + 1 := by
  obtain ⟨pre1, slv, lv, htl⟩ := exists_two_last tl (by simp only [List.length_cons] at h3; omega)
  rcases pre1 with _ | ⟨x1, pre2⟩
  · -- exactly three vertices: the single window fires all three inserts
    rw [List.nil_append] at htl
    subst htl
    have hl0tl : l0 ∉ [slv, lv] := (List.nodup_cons.mp hnd).1
    have hndtl : ([slv, lv] : List Vertex).Nodup := (List.nodup_cons.mp hnd).2
    have h1 : l0 ≠ slv := fun h => hl0tl (by rw [h]; simp)
    have hl0lv : l0 ≠ lv := fun h => hl0tl (by rw [h]; simp)
    have h2 : slv ≠ lv := (List.nodup_cons.mp hndtl).1 ∘ fun h => by rw [h]; simp
    have hnew : Polygon.new (l0 :: [slv, lv])
        = some ⟨l0, (windows3 (l0 :: [slv, lv])).foldl
            (newStep l0 ((l0 :: [slv, lv]).getLastD l0)) []⟩ := rfl
    have hlast : ((l0 :: [slv, lv]).getLastD l0) = lv := rfl
    have hnbrs : (polygonOf (l0 :: [slv, lv])).neighbors
        = (windows3 (l0 :: [slv, lv])).foldl (newStep l0 lv) [] := by
      unfold polygonOf
      rw [hnew, Option.getD_some, hlast]
    have hm0 : (windows3 (l0 :: [slv, lv])).foldl (newStep l0 lv) []
        = nbrInsert (nbrInsert (nbrInsert [] slv (l0, lv)) l0 (lv, slv)) lv (slv, l0) := by
      show newStep l0 lv [] (l0, slv, lv) = _
      simp only [newStep, beq_self_eq_true]
      simp
    have hfr0 : ∀ e ∈ ([] : NbrMap), e.1 ≠ slv := by intro e he; simp at he
    have hfr1 : ∀ e ∈ (nbrInsert [] slv (l0, lv) : NbrMap), e.1 ≠ l0 := by
      intro e he
      rw [nbrInsert_fresh _ _ _ hfr0] at he
      rcases List.mem_cons.mp he with he1 | he2
      · rw [he1]; exact h1.symm
      · simp at he2
    have hfr2 : ∀ e ∈ (nbrInsert (nbrInsert [] slv (l0, lv)) l0 (lv, slv) : NbrMap),
        e.1 ≠ lv := by
      intro e he
      rw [nbrInsert_fresh _ _ _ hfr1, nbrInsert_fresh _ _ _ hfr0] at he
      rcases List.mem_cons.mp he with he1 | he2
      · rw [he1]; exact hl0lv
      · rcases List.mem_cons.mp he2 with he3 | he4
        · rw [he3]; exact h2
        · simp at he4
    refine ⟨?_, ?_⟩
    · intro u rest k hsh
      rw [hnbrs, hm0, nbrFind_insert, nbrFind_insert, nbrFind_insert]
      match u, hsh with
      | [], hsh =>
        injection hsh with hk hrest
        subst hk
        subst hrest
        exact ⟨lv, by rw [if_neg hl0lv, if_pos rfl]; rfl⟩
      | [u0], hsh =>
        injection hsh with hu0 hsh2
        injection hsh2 with hk hrest
        subst hk
        subst hrest
        exact ⟨l0, by rw [if_neg h2, if_neg (fun h => h1 h.symm), if_pos rfl]; rfl⟩
      | [u0, u1], hsh =>
        injection hsh with hu0 hsh2
        injection hsh2 with hu1 hsh3
        injection hsh3 with hk hrest
        subst hk
        subst hrest
        exact ⟨slv, by rw [if_pos rfl]; rfl⟩
      | u0 :: u1 :: u2 :: u', hsh =>
        exfalso
        injection hsh with hu0 hsh2
        injection hsh2 with hu1 hsh3
        injection hsh3 with hu2 hsh4
        have := hsh4.symm
        simp at this
    · rw [hnbrs, hm0]
      rw [nbrInsert_fresh_length _ _ _ hfr2, nbrInsert_fresh_length _ _ _ hfr1,
        nbrInsert_fresh_length _ _ _ hfr0]
      rfl
  · -- at least four vertices
    subst htl
    have hl0tl : l0 ∉ (x1 :: pre2) ++ [slv, lv] := (List.nodup_cons.mp hnd).1
    have hndtl : ((x1 :: pre2) ++ [slv, lv]).Nodup := (List.nodup_cons.mp hnd).2
    obtain ⟨c, t, hct⟩ : ∃ c t, pre2 ++ [slv, lv] = c :: t := by
      cases pre2 <;> exact ⟨_, _, rfl⟩
    have htl2 : (x1 :: pre2) ++ [slv, lv] = x1 :: c :: t := by
      rw [List.cons_append, hct]
    have hlvt : lv ∈ t := by
      match pre2, hct with
      | [], h =>
        injection h with h1 h2
        rw [← h2]; simp
      | d :: pre3, h =>
        injection h with h1 h2
        rw [← h2]; simp
    have htne : t ≠ [] := List.ne_nil_of_mem hlvt
    have h3tl : 3 ≤ ((x1 :: pre2) ++ [slv, lv]).length := by
      rw [htl2]
      simp only [List.length_cons]
      have := List.length_pos.mpr htne
      omega
    have hlvtl : lv ∈ (x1 :: pre2) ++ [slv, lv] := by simp
    have hl0lv : l0 ≠ lv := fun h => hl0tl (h ▸ hlvtl)
    have hndtl2 : (x1 :: c :: t).Nodup := htl2 ▸ hndtl
    have hx1ct : x1 ∉ c :: t := (List.nodup_cons.mp hndtl2).1
    have hl0x1 : l0 ≠ x1 := fun h => hl0tl (by rw [h]; simp)
    have hclv : c ≠ lv := by
      have hndct : (c :: t).Nodup := (List.nodup_cons.mp hndtl2).2
      exact fun h => (List.nodup_cons.mp hndct).1 (h ▸ hlvt)
    have hx1lv : x1 ≠ lv := fun h => hx1ct (h ▸ List.mem_cons_of_mem c hlvt)
    have hnew : Polygon.new (l0 :: ((x1 :: pre2) ++ [slv, lv]))
        = some ⟨l0, (windows3 (l0 :: ((x1 :: pre2) ++ [slv, lv]))).foldl
            (newStep l0 ((l0 :: ((x1 :: pre2) ++ [slv, lv])).getLastD l0)) []⟩ := rfl
    have hlast : ((l0 :: ((x1 :: pre2) ++ [slv, lv])).getLastD l0) = lv :=
      getLastD_two_last l0 slv lv (x1 :: pre2)
    have hnbrs : (polygonOf (l0 :: ((x1 :: pre2) ++ [slv, lv]))).neighbors
        = (windows3 (l0 :: ((x1 :: pre2) ++ [slv, lv]))).foldl (newStep l0 lv) [] := by
      unfold polygonOf
      rw [hnew, Option.getD_some, hlast]
    have hstep : newStep l0 lv [] (l0, x1, c)
        = nbrInsert (nbrInsert [] x1 (l0, c)) l0 (lv, x1) := by
      simp only [newStep, beq_self_eq_true, beq_eq_false_iff_ne.mpr hclv]
      simp
    have hfr0 : ∀ e ∈ ([] : NbrMap), e.1 ≠ x1 := by intro e he; simp at he
    have hfr1 : ∀ e ∈ (nbrInsert [] x1 (l0, c) : NbrMap), e.1 ≠ l0 := by
      intro e he
      rw [nbrInsert_fresh _ _ _ hfr0] at he
      rcases List.mem_cons.mp he with he1 | he2
      · rw [he1]; exact fun h => hl0x1 h.symm
      · simp at he2
    have hm0e : nbrInsert (nbrInsert [] x1 (l0, c)) l0 (lv, x1)
        = [(l0, lv, x1), (x1, l0, c)] := by
      rw [nbrInsert_fresh _ _ _ hfr1, nbrInsert_fresh _ _ _ hfr0]
    have hfoldeq : (windows3 (l0 :: ((x1 :: pre2) ++ [slv, lv]))).foldl (newStep l0 lv) []
        = (windows3 ((x1 :: pre2) ++ [slv, lv])).foldl (newStep l0 lv)
            (nbrInsert (nbrInsert [] x1 (l0, c)) l0 (lv, x1)) := by
      have hshape : l0 :: ((x1 :: pre2) ++ [slv, lv]) = l0 :: x1 :: c :: t := by rw [htl2]
      rw [hshape, windows3, List.foldl_cons, ← htl2, hstep]
    have hdisj0 : ∀ e ∈ (nbrInsert (nbrInsert [] x1 (l0, c)) l0 (lv, x1) : NbrMap),
        e.1 ∉ ((x1 :: pre2) ++ [slv, lv]).tail := by
      rw [hm0e, htl2, List.tail_cons]
      intro e he
      rcases List.mem_cons.mp he with he1 | he2
      · rw [he1]
        intro hmem
        exact hl0tl (by rw [htl2]; exact List.mem_cons_of_mem x1 hmem)
      · rcases List.mem_cons.mp he2 with he3 | he4
        · rw [he3]
          exact hx1ct
        · simp at he4
    have hfold := foldNbrs_suffix l0 lv slv (x1 :: pre2)
      (nbrInsert (nbrInsert [] x1 (l0, c)) l0 (lv, x1)) hndtl hl0tl hdisj0
    refine ⟨?_, ?_⟩
    · intro u rest k hsh
      rw [hnbrs, hfoldeq, hfold.1 k]
      match u, hsh with
      | [], hsh =>
        -- k is the anchor vertex; its successor is the second vertex x1
        injection hsh with hk hrest
        subst hk
        subst hrest
        have hcl : chainLookup ((x1 :: pre2) ++ [slv, lv]) l0 = none := by
          apply chainLookup_none
          intro hmem
          exact hl0tl (List.dropLast_subset _ (List.tail_subset _ hmem))
        rw [hcl]
        refine ⟨lv, ?_⟩
        rw [if_neg (fun h => hl0lv h.2)]
        rw [nbrFind_insert, if_pos rfl, htl2]
        rfl
      | u0 :: u', hsh =>
        injection hsh with hu0 htlu
        match u', htlu with
        | [], htlu =>
          -- k is the second vertex x1; its successor is the third vertex c
          rw [htl2] at htlu
          injection htlu with hk hrest
          subst hk
          subst hrest
          have hcl : chainLookup ((x1 :: pre2) ++ [slv, lv]) x1 = none := by
            apply chainLookup_none
            rw [htl2, List.dropLast_cons₂, List.tail_cons]
            intro hmem
            exact hx1ct (List.dropLast_subset _ hmem)
          rw [hcl]
          rw [if_neg (fun h => hx1lv h.2)]
          rw [nbrFind_insert, if_neg hl0x1.symm, nbrFind_insert, if_pos rfl]
          exact ⟨l0, rfl⟩
        | u1 :: u'', htlu =>
          match rest with
          | nx :: r =>
            -- k is an interior vertex of the tail chain with successor nx
            have hne : (u1 :: u'') ≠ [] := List.cons_ne_nil u1 u''
            have hshape : (x1 :: pre2) ++ [slv, lv]
                = (u1 :: u'').dropLast
                    ++ ((u1 :: u'').getLast hne :: k :: nx :: r) := by
              rw [htlu, List.append_cons ((u1 :: u'').dropLast) ((u1 :: u'').getLast hne)
                (k :: nx :: r)]
              rw [List.dropLast_append_getLast hne]
              rfl
            have hcl : chainLookup ((x1 :: pre2) ++ [slv, lv]) k
                = some ((u1 :: u'').getLast hne, nx) := by
              rw [hshape]
              exact chainLookup_pos _ _ _ _ _ (by rw [← hshape]; exact hndtl)
            rw [hcl]
            exact ⟨(u1 :: u'').getLast hne, rfl⟩
          | [] =>
            -- k is the last vertex; its successor closes the cycle at l0
            have htlu2 : x1 :: pre2 ++ [slv, lv] = (u1 :: u'') ++ [k] := htlu
            have hk : lv = k := by
              have hg1 : ((x1 :: pre2) ++ [slv, lv]).getLast? = some k := by
                rw [htlu2, List.getLast?_concat]
              have hg2 : ((x1 :: pre2) ++ [slv, lv]).getLast? = some lv := by
                rw [show (x1 :: pre2) ++ [slv, lv] = ((x1 :: pre2) ++ [slv]) ++ [lv] by simp,
                  List.getLast?_concat]
              rw [hg1] at hg2
              exact (Option.some.inj hg2).symm
            subst hk
            rw [chainLookup_last_none (x1 :: pre2) slv lv hndtl]
            rw [if_pos ⟨h3tl, rfl⟩]
            exact ⟨slv, rfl⟩
    · rw [hnbrs, hfoldeq, hfold.2, if_pos h3tl, hm0e]
      rw [htl2]
      simp only [List.tail_cons, List.length_cons, List.length_nil]
      omega

theorem polygonOf_edgesAux (l0 : Vertex) (tl : List Vertex)
    (hnd : (l0 :: tl).Nodup) (h3 : 3 ≤ (l0 :: tl).length) :
    ∀ (s' : List Vertex) (k : Vertex) (u : List Vertex), l0 :: tl = u ++ k :: s' →
    (polygonOf (l0 :: tl)).edgesAux (s'.length + 1) k
      = ((k :: s').zip (s' ++ [l0])).map fun q => (⟨q.1, q.2⟩ : VSeg) := by
  have hanchor : (polygonOf (l0 :: tl)).anchor = l0 := rfl
  intro s'
  induction s' with
  | nil =>
    intro k u hsh
    obtain ⟨pv, hlook⟩ := (polygonOf_nbr l0 tl hnd h3).1 u [] k hsh
    show Polygon.edgesAux _ (0 + 1) k = _
    simp only [Polygon.edgesAux, hlook, hanchor]
    simp
  | cons nx s'' ih =>
    intro k u hsh
    obtain ⟨pv, hlook⟩ := (polygonOf_nbr l0 tl hnd h3).1 u (nx :: s'') k hsh
    have hnxtl : nx ∈ tl := by
      match u, hsh with
      | [], hsh =>
        injection hsh with _ h2
        rw [h2]; simp
      | u0 :: u', hsh =>
        injection hsh with _ h2
        rw [h2]
        exact (by simp : nx ∈ u' ++ k :: nx :: s'')
    have hnxl0 : (nx == l0) = false :=
      beq_eq_false_iff_ne.mpr (fun h => (List.nodup_cons.mp hnd).1 (h ▸ hnxtl))
    have hrec := ih nx (u ++ [k])
      (by rw [hsh, List.append_cons u k (nx :: s'')])
    simp only [List.head?_cons, Option.getD_some] at hlook
    show Polygon.edgesAux _ ((nx :: s'').length + 1) k = _
    simp only [List.length_cons]
    rw [Polygon.edgesAux]
    simp only [hlook, hanchor, hnxl0, Bool.false_eq_true, if_false]
    rw [hrec]
    simp

theorem edges_polygonOf (l : List Vertex) (hnd : l.Nodup) (h3 : 3 ≤ l.length) :
    (polygonOf l).edges = cyclicSegs l := by
  match l with
  | [] => simp at h3
  | l0 :: tl =>
    unfold Polygon.edges
    have hanchor : (polygonOf (l0 :: tl)).anchor = l0 := rfl
    rw [(polygonOf_nbr l0 tl hnd h3).2, hanchor]
    rw [polygonOf_edgesAux l0 tl hnd h3 tl l0 [] rfl]
    unfold cyclicSegs
    have hrot : (l0 :: tl).rotate 1 = tl ++ [l0] := by
      rw [List.rotate_cons_succ, List.rotate_zero]
    rw [hrot]

/-! ## Theorem for claim C7 -/

/-- C7: for every duplicate-free vertex list of length at least 3, the
polygon `Polygon::new` builds from it has `double_area` equal to the
shoelace sum of the vertex cycle, so it is invariant under the choice
of anchor (rotating the construction list, which both moves the
traversal start and the triangle apex), it is positive for a
counter-clockwise cycle (positive shoelace sum), and building the
polygon from the reversed vertex order negates it. -/
theorem C7_double_area_anchor_invariant_ccw_reversal
    (l : List Vertex) (k : ℕ) (hnd : l.Nodup) (hl : 3 ≤ l.length) :
    (polygonOf l).double_area = shoelace (l.map Vertex.coords) ∧
    (polygonOf (l.rotate k)).double_area = (polygonOf l).double_area ∧
    (polygonOf l.reverse).double_area = -(polygonOf l).double_area ∧
    (0 < shoelace (l.map Vertex.coords) → 0 < (polygonOf l).double_area) := by
  have e1 := double_area_eq_shoelace (polygonOf l) l
    (edges_polygonOf l hnd hl)
  have e2 := double_area_eq_shoelace (polygonOf (l.rotate k)) (l.rotate k)
    (edges_polygonOf (l.rotate k) ((l.rotate_perm k).nodup_iff.mpr hnd)
      (by rw [List.length_rotate]; exact hl))
  have e3 := double_area_eq_shoelace (polygonOf l.reverse) l.reverse
    (edges_polygonOf l.reverse (List.nodup_reverse.mpr hnd)
      (by rw [List.length_reverse]; exact hl))
  rw [List.map_rotate, shoelace_rotate] at e2
  rw [List.map_reverse, shoelace_reverse] at e3
  refine ⟨e1, ?_, ?_, ?_⟩
  · rw [e2, e1]
  · rw [e3, e1]
  · intro hpos
    rw [e1]
    exact hpos

/-- Witness for C7 on the right triangle `(0,0), (3,0), (0,4)` with
rotation `k = 1`: the list is duplicate-free with three vertices, and
`double_area` comes out `12 > 0` as in the spec's concrete scenario. -/
theorem C7_double_area_anchor_invariant_ccw_reversal_witness :
    (rtVertices.Nodup ∧ 3 ≤ rtVertices.length) ∧
    ((polygonOf rtVertices).double_area = shoelace (rtVertices.map Vertex.coords) ∧
      (polygonOf (rtVertices.rotate 1)).double_area = (polygonOf rtVertices).double_area ∧
      (polygonOf rtVertices.reverse).double_area = -(polygonOf rtVertices).double_area ∧
      (0 < shoelace (rtVertices.map Vertex.coords) → 0 < (polygonOf rtVertices).double_area)) :=
  ⟨⟨by decide, by decide⟩,
    C7_double_area_anchor_invariant_ccw_reversal rtVertices 1 (by decide) (by decide)⟩

/-! ## Theorems for claims C9, C1 and C2 -/

/-- Two-option match as an existential (helper). -/
theorem match_option2_eq_true (o1 : Option Vertex) (o2 : Option Triangle)
    (f : Vertex → Triangle → Bool) :
    (match o1, o2 with | some v, some t => f v t | _, _ => false) = true
      ↔ ∃ v t, o1 = some v ∧ o2 = some t ∧ f v t = true := by
  cases o1 <;> cases o2 <;> simp

/-- Counterexample for C9: on the polygon `(0,0), (2,0), (4,0), (3,4)`
the vertex with id 1 — the point `(2,0)`, which lies ON the boundary of
the triangle `(0,0), (4,0), (3,4)` — is classified interior by
`InteriorPoints::interior_points`, although it is strictly inside no
triangle of three other vertices (`Triangle::contains` uses `left_on`,
so closed containment, not the claim's strict containment). -/
theorem C9_boundary_point_classified_interior :
    (1 ∈ interior_points qVertices) ∧ strictlyFoundInterior qVertices 1 = false := by
  constructor
  · decide
  · decide

/-- C9 as amended: a vertex id is found interior exactly when some
ordered triple of three other pairwise-distinct ids spans a
nondegenerate triangle whose CLOSED region (boundary included, per
`Triangle::contains`) contains the vertex's point; and the hull id set
is all vertex ids minus the ids found interior. -/
theorem C9_interior_points_closed_containment (l : List Vertex) (i : ℕ) :
    (i ∈ interior_points l ↔ i ∈ vertex_ids l ∧
      ∃ a ∈ vertex_ids l, ∃ b ∈ vertex_ids l, ∃ c ∈ vertex_ids l,
        a ≠ i ∧ b ≠ i ∧ c ≠ i ∧ a ≠ b ∧ a ≠ c ∧ b ≠ c ∧
        ∃ v t, get_vertex l i = some v ∧ get_triangle l a b c = some t ∧
          t.contains v.coords = true) ∧
    hullIds (interiorPointsHull l) = (vertex_ids l).toFinset \ interior_points l := by
  constructor
  · simp only [interior_points, List.mem_toFinset, List.mem_filter, isFoundInterior,
      List.any_eq_true, Bool.and_eq_true, bne_iff_ne, ne_eq, match_option2_eq_true]
    constructor
    · rintro ⟨hi, a, ha, b, hb, c, hc, hrest⟩
      obtain ⟨h6, v, t, hv, ht, hcont⟩ := hrest
      obtain ⟨⟨⟨⟨⟨hai, hbi⟩, hci⟩, hab⟩, hac⟩, hbc⟩ := h6
      exact ⟨hi, a, ha, b, hb, c, hc, hai, hbi, hci, hab, hac, hbc, v, t, hv, ht, hcont⟩
    · rintro ⟨hi, a, ha, b, hb, c, hc, hai, hbi, hci, hab, hac, hbc, hex⟩
      obtain ⟨v, t, hv, ht, hcont⟩ := hex
      exact ⟨hi, a, ha, b, hb, c, hc,
        ⟨⟨⟨⟨⟨⟨hai, hbi⟩, hci⟩, hab⟩, hac⟩, hbc⟩, ⟨v, t, hv, ht, hcont⟩⟩⟩
  · ext j
    simp only [hullIds, interiorPointsHull, get_polygon_preserving, List.mem_toFinset,
      List.mem_map, List.mem_filter, decide_eq_true_eq, Finset.mem_sdiff, vertex_ids]
    constructor
    · rintro ⟨v, ⟨hvl, hvS⟩, hvj⟩
      subst hvj
      exact hvS
    · rintro ⟨hj1, hj2⟩
      obtain ⟨v, hvl, hvj⟩ := hj1
      refine ⟨v, ⟨hvl, ?_⟩, hvj⟩
      rw [hvj]
      exact ⟨⟨v, hvl, hvj⟩, hj2⟩

/-- Counterexample for C1: on the simple CCW polygon
`(0,0), (2,0), (4,0), (3,4)` (a vertex lies on the segment joining the
two x-extreme vertices), QuickHull returns the id set `{0, 1, 2, 3}` —
it keeps the collinear vertex `(2,0)`: the only nonempty partition
consists of points at distance zero from the dividing segment, and
`max_by_key` still picks one — while InteriorPoints returns
`{0, 2, 3}`.  The six implementations therefore do not always agree. -/
theorem C1_quickhull_and_interior_points_disagree :
    hullIds (interiorPointsHull qVertices) = {0, 2, 3} ∧
    (quickHullHull qVertices).map hullIds = some {0, 1, 2, 3} ∧
    (quickHullHull qVertices).map hullIds ≠ some (hullIds (interiorPointsHull qVertices)) := by
  refine ⟨by decide, by decide, by decide⟩

/-- C1 as amended: the implementations can disagree on polygons with a
vertex on the segment between the x-extremes (see the counterexample);
on the spec's right-triangle scenario all six agree and return all
three vertex ids. -/
theorem C1_all_six_agree_on_right_triangle :
    hullIds (interiorPointsHull rtVertices) = {0, 1, 2} ∧
    hullIds (extremeEdgesHull rtVertices) = {0, 1, 2} ∧
    (giftWrappingHull rtVertices).map hullIds = some {0, 1, 2} ∧
    (quickHullHull rtVertices).map hullIds = some {0, 1, 2} ∧
    (grahamScanHull rtVertices).map hullIds = some {0, 1, 2} ∧
    (divideConquerHull rtVertices).map hullIds = some {0, 1, 2} := by
  refine ⟨by decide, by decide, by decide, by decide, by decide, by decide⟩

/-- Counterexample for C2: `DivideConquer::convex_hull` returns any
3-vertex input as an unchanged clone, so on the CLOCKWISE right
triangle `(0,0), (0,4), (3,0)` the output boundary is that same
clockwise cycle — its doubled signed area is negative, violating the
contract's counter-clockwise output order. -/
theorem C2_divide_conquer_preserves_cw_triangle :
    divideConquerHull cwTriVertices = some cwTriVertices ∧
    shoelace (cwTriVertices.map Vertex.coords) < 0 ∧
    ¬ ccwCycle cwTriVertices := by
  refine ⟨by decide, by decide, ?_⟩
  unfold ccwCycle
  decide

/-- C2 as amended: `DivideConquer::convex_hull` returns every 3-vertex
input unchanged — it preserves, rather than enforces, the input's
orientation (the rest of the contract is unaffected by this clone
case). -/
theorem C2_divide_conquer_clones_three_vertex_input (l : List Vertex)
    (h3 : l.length = 3) : divideConquerHull l = some l := by
  unfold divideConquerHull
  simp [h3]

/-- Witness for the amended C2 on the (CCW) right triangle. -/
theorem C2_divide_conquer_clones_three_vertex_input_witness :
    rtVertices.length = 3 ∧ divideConquerHull rtVertices = some rtVertices :=
  ⟨by decide, C2_divide_conquer_clones_three_vertex_input rtVertices (by decide)⟩
